import Mathlib

set_option maxRecDepth 4000

/-!
Verification of the `davlgd/send-sms` text-processing pipeline
(`crates/freemobile-api`: sanitizer, chunker, formatter, dispatcher;
`crates/cli`: input validation) against its natural-language specification.

The Rust code is shallowly embedded over an abstract character model.
A `UChar` records exactly the per-character data the Rust code consults:
the Unicode code point, the UTF-8 byte length, `char::is_whitespace`,
membership in the regex classes `\p{Emoji_Presentation}` (`ep`) and
`\p{Extended_Pictographic}` (`xp`), and whether the character extends the
preceding grapheme cluster (`ext`, abstracting a Grapheme_Cluster_Break of
Extend / ZWJ / SpacingMark, UAX #29).  A text is a `List UChar`; grapheme
segmentation groups a non-extending character with the run of extending
characters that follows it.
-/

/-- Abstract Unicode scalar value, carrying the attributes the program reads. -/
structure UChar where
  code : Nat
  bytes : Nat
  ws : Bool
  ep : Bool
  xp : Bool
  ext : Bool
deriving DecidableEq, Repr

/-- Plain ASCII character: one UTF-8 byte, whitespace only for space itself,
never pictographic, never cluster-extending. -/
def mkAscii (c : Nat) : UChar :=
  { code := c, bytes := 1, ws := (c = 0x20 || c = 0x0A || c = 0x0D || c = 0x09),
    ep := false, xp := false, ext := false }

/-- UTF-8 byte length of a text, as Rust `str::len`. -/
def byteLen (s : List UChar) : Nat :=
  (s.map (fun c => c.bytes)).sum

/-- Grapheme segmentation: a cluster is a starter followed by the maximal run
of extending characters (model of `unicode_segmentation`'s `graphemes(true)`
restricted to the Extend/ZWJ-driven rules the program relies on). -/
def graphemesGo (cur : List UChar) : List UChar → List (List UChar)
  | [] => [cur.reverse]
  | c :: cs => if c.ext then graphemesGo (c :: cur) cs else cur.reverse :: graphemesGo [c] cs

/-- Grapheme clusters of a text. -/
def graphemes : List UChar → List (List UChar)
  | [] => []
  | c :: cs => graphemesGo [c] cs

/-- Number of grapheme clusters, as Rust `s.graphemes(true).count()`. -/
def graphemeCount (s : List UChar) : Nat :=
  (graphemes s).length

/-- Rust `str::trim`: strip leading and trailing whitespace characters. -/
def trim (s : List UChar) : List UChar :=
  ((((s.dropWhile (fun c => c.ws)).reverse).dropWhile (fun c => c.ws)).reverse)

/-- Take the longest prefix whose cumulative UTF-8 byte length is at most `n`
(in the program `n` is always an exact character boundary). -/
def takeBytes : List UChar → Nat → List UChar
  | [], _ => []
  | c :: cs, n => if n = 0 then [] else c :: takeBytes cs (n - c.bytes)

/-- Drop the prefix of cumulative UTF-8 byte length `n`. -/
def dropBytes : List UChar → Nat → List UChar
  | [], _ => []
  | c :: cs, n => if n = 0 then c :: cs else dropBytes cs (n - c.bytes)

/-- Constant `MAX_MESSAGE_LENGTH` of `freemobile-api/src/constants.rs`: the absolute
FreeMobile transport limit, in grapheme clusters. -/
def MAX_MESSAGE_LENGTH : Nat := 999

/-- Constant `PREFIX_RESERVE_LENGTH`: characters reserved for a chunk label. -/
def PREFIX_RESERVE_LENGTH : Nat := 8

/-- Constant `MIN_BOUNDARY_RATIO` of module `word_boundary`: a boundary is accepted only beyond
one third of the scanned span. -/
def MIN_BOUNDARY_RATIO : Nat := 3

/-- The effective per-chunk limit of the multi-chunk path,
`MAX_MESSAGE_LENGTH - PREFIX_RESERVE_LENGTH`. -/
def effectiveChunkLimit : Nat := MAX_MESSAGE_LENGTH - PREFIX_RESERVE_LENGTH

/-- State-passing loop of the per-iteration scan of `MessageChunker::chunk`
(chunker.rs lines 43-57): the accumulator carries `byte_pos` and
`last_word_boundary_pos`. -/
def scanGo (acc : Nat × Nat) : List (List UChar) → Nat × Nat
  | [] => acc
  | g :: gs =>
    scanGo (acc.1 + byteLen g,
      if g.any (fun c => c.ws) then acc.1 + byteLen g else acc.2) gs

/-- The per-iteration scan of `MessageChunker::chunk` over the scanned
clusters, yielding `(byte_pos, last_word_boundary_pos)`. -/
def scanFold (gs : List (List UChar)) : Nat × Nat :=
  scanGo (0, 0) gs

/-- One iteration of the chunking loop (chunker.rs lines 38-85): scan up to
the effective limit, choose the split position, emit the trimmed chunk and
the remaining text with leading whitespace skipped; the safety fallback takes
one character. -/
def chunkStep (rem : List UChar) : List UChar × List UChar :=
  let scanned := (graphemes rem).take effectiveChunkLimit
  let bp := (scanFold scanned).1
  let lwb := (scanFold scanned).2
  let split := if lwb > bp / MIN_BOUNDARY_RATIO then lwb else bp
  if split > 0 then
    (trim (takeBytes rem split), (dropBytes rem split).dropWhile (fun c => c.ws))
  else
    (rem.take 1, rem.drop 1)

/-- The chunking loop (chunker.rs lines 29-86), with explicit fuel so that the
definition is structurally recursive; each iteration consumes at least one
character (`chunkStep_snd_length_lt`), so fuel `rem.length` is never exhausted. -/
def chunkLoop : Nat → List UChar → List (List UChar)
  | 0, _ => []
  | fuel + 1, rem =>
    if rem = [] then []
    else if graphemeCount rem ≤ effectiveChunkLimit then [trim rem]
    else (chunkStep rem).1 :: chunkLoop fuel (chunkStep rem).2

/-- Model of `MessageChunker::chunk` (chunker.rs lines 13-89). -/
def chunk (message : List UChar) : List (List UChar) :=
  if trim message = [] then []
  else if graphemeCount message ≤ MAX_MESSAGE_LENGTH then [message]
  else chunkLoop message.length message

/-- Decimal digit character. -/
def digitChar (d : Nat) : UChar := mkAscii (0x30 + d)

/-- Decimal rendering of a natural number, most significant digit first
(fuel-structured; fuel `n` always suffices). -/
def natDigitsGo : Nat → Nat → List UChar
  | 0, n => [digitChar (n % 10)]
  | fuel + 1, n => if n < 10 then [digitChar n] else natDigitsGo fuel (n / 10) ++ [digitChar (n % 10)]

/-- Rust `format!("{}", n)` for an index. -/
def natDigits (n : Nat) : List UChar := natDigitsGo n n

/-- The label `"[i/n] "` that `format_chunks` prepends (chunker.rs line 100). -/
def chunkLabel (i n : Nat) : List UChar :=
  mkAscii 0x5B :: natDigits i ++ [mkAscii 0x2F] ++ natDigits n ++ [mkAscii 0x5D, mkAscii 0x20]

/-- Model of `MessageChunker::format_chunks` (chunker.rs lines 92-102). -/
def format_chunks (chunks : List (List UChar)) : List (List UChar) :=
  if chunks.length ≤ 1 then chunks
  else chunks.enum.map (fun p => chunkLabel (p.1 + 1) chunks.length ++ p.2)

/-- The match of the regex
`[\p{Emoji_Presentation}\p{Extended_Pictographic}][\u{FE0F}\u{20E3}]?`
begins at a character of either class (sanitizer.rs lines 6-9). -/
def picto (c : UChar) : Bool := c.ep || c.xp

/-- The optional second character of a match: variation selector-16 or
combining enclosing keycap. -/
def vsOrKeycap (c : UChar) : Bool := c.code = 0xFE0F || c.code = 0x20E3

/-- Rust `emoji.replace('\u{FE0F}', "")` (sanitizer.rs line 20). -/
def stripVS (m : List UChar) : List UChar := m.filter (fun c => c.code ≠ 0xFE0F)

/-- The literal placeholder `"[]"` (sanitizer.rs line 25). -/
def placeholder : List UChar := [mkAscii 0x5B, mkAscii 0x5D]

/-- The replacement decision of the closure passed to `replace_all`
(sanitizer.rs lines 18-27): keep the matched emoji if either it or its
variation-selector-stripped form is supported, else emit `"[]"`. -/
def keepOrReplace (sup : List UChar → Bool) (m : List UChar) : List UChar :=
  if sup (stripVS m) || sup m then m else placeholder

/-- Model of `MessageSanitizer::sanitize` (sanitizer.rs lines 16-29): left-to-right
scan replacing each non-overlapping regex match via `keepOrReplace`,
parameterised by the allow-list predicate. -/
def sanitize (sup : List UChar → Bool) : List UChar → List UChar
  | [] => []
  | [c] => if picto c then keepOrReplace sup [c] else [c]
  | c :: v :: rest2 =>
    if picto c then
      if vsOrKeycap v then keepOrReplace sup [c, v] ++ sanitize sup rest2
      else keepOrReplace sup [c] ++ sanitize sup (v :: rest2)
    else c :: sanitize sup (v :: rest2)

/-- The check-mark emoji U+2705 (3 UTF-8 bytes, Emoji_Presentation and Extended_Pictographic). -/
def checkMark : UChar :=
  { code := 0x2705, bytes := 3, ws := false, ep := true, xp := true, ext := false }

/-- The high-voltage emoji U+26A1. -/
def highVoltage : UChar :=
  { code := 0x26A1, bytes := 3, ws := false, ep := true, xp := true, ext := false }

/-- The cross-mark emoji U+274C. -/
def crossMark : UChar :=
  { code := 0x274C, bytes := 3, ws := false, ep := true, xp := true, ext := false }

/-- The grinning-face emoji U+1F600 (4 UTF-8 bytes). -/
def grinningFace : UChar :=
  { code := 0x1F600, bytes := 4, ws := false, ep := true, xp := true, ext := false }

/-- The letter e with acute accent, U+00E9 (2 UTF-8 bytes, not pictographic). -/
def eAcute : UChar :=
  { code := 0xE9, bytes := 2, ws := false, ep := false, xp := false, ext := false }

/-- Modelled from the spec: the crate's `supported_emojis` module (declared in
lib.rs but absent from the sources) provides `is_supported_emoji`, an exact
membership test in an immutable allow-list of pictographic clusters; per spec
§4.1/§8 scenario C the list contains ✅ and ⚡ (and per the crate docs ❌)
while 😀 is not supported. -/
def supportedEmojiList : List (List UChar) := [[checkMark], [highVoltage], [crossMark]]

/-- Modelled from the spec: `supported_emojis::is_supported_emoji`, exact
equality against the allow-list members. -/
def is_supported_emoji (m : List UChar) : Bool :=
  supportedEmojiList.any (fun e => e == m)

/-- Model of `FreeMobileError` (error.rs lines 4-34); payloads irrelevant to the claims
are abstracted to the codes and counters the claims mention. -/
inductive FreeMobileError where
  | InvalidCredentials
  | TooManyRequests
  | AccessDenied
  | ServerError
  | HttpError (e : Nat)
  | EmptyMessage
  | InvalidMessage
  | ConfigError
  | IoError
  | Unknown
deriving DecidableEq, Repr

/-- Model of `Credentials` (client.rs lines 11-14). -/
structure Credentials where
  user : List UChar
  pass : List UChar

/-- Model of `Credentials::is_valid` (client.rs lines 39-41). -/
def Credentials.is_valid (c : Credentials) : Bool :=
  !(trim c.user).isEmpty && !(trim c.pass).isEmpty

/-- Model of `FreeMobileClient::new` (client.rs lines 84-99): reject invalid
credentials before any other work; otherwise the HTTP-client build (a local
construction, no transport call) either fails with its own error, mapped to
`HttpError`, or yields the client.  The build outcome is abstracted as a
parameter. -/
def FreeMobileClient.new (credentials : Credentials) (build : Except Nat Unit) :
    Except FreeMobileError Credentials :=
  if !credentials.is_valid then .error .InvalidCredentials
  else
    match build with
    | .error e => .error (.HttpError e)
    | .ok _ => .ok credentials

/-- The chunk-sending loop of `FreeMobileClient::send_sanitized`
(client.rs lines 156-163): send each formatted chunk in order through the
transport, stopping at the first failure.  The transport (`send_chunk`, an
external HTTP exchange) is abstracted as a function of the chunk index and
text; the returned trace lists the requests actually issued, in order. -/
def sendChunksGo (transport : Nat → List UChar → Except FreeMobileError Unit) :
    Nat → List (List UChar) → Except FreeMobileError Unit × List (Nat × List UChar)
  | _, [] => (.ok (), [])
  | i, c :: rest =>
    match transport i c with
    | .error e => (.error e, [(i, c)])
    | .ok _ =>
      let out := sendChunksGo transport (i + 1) rest
      (out.1, (i, c) :: out.2)

/-- Model of `FreeMobileClient::send_sanitized` (client.rs lines 148-166), with the
inter-chunk pacing sleep (pure timing) elided. -/
def send_sanitized (transport : Nat → List UChar → Except FreeMobileError Unit)
    (sanitized_message : List UChar) :
    Except FreeMobileError Unit × List (Nat × List UChar) :=
  if trim sanitized_message = [] then (.error .EmptyMessage, [])
  else sendChunksGo transport 0 (format_chunks (chunk sanitized_message))

/-- Constant `MAX_MESSAGE_LENGTH` of `cli/src/constants.rs` (line 9): the upstream
application-level ceiling of the pre-validation guard. -/
def CLI_MAX_MESSAGE_LENGTH : Nat := 5000

/-- Model of `InputHandler::validate_message` (cli/src/input.rs lines 51-65).  Note the
length check is Rust `message.len()`, the UTF-8 byte length. -/
def validate_message (message : List UChar) : Except FreeMobileError Unit :=
  if trim message = [] then .error .EmptyMessage
  else if byteLen message > CLI_MAX_MESSAGE_LENGTH then .error .InvalidMessage
  else .ok ()


/-- Number of non-extending characters (each starts a grapheme cluster). -/
def neCount (s : List UChar) : Nat := (s.filter (fun c => !c.ext)).length

/-- Declarative reading of the scan: the byte position just past the last
whitespace-containing cluster of the scanned clusters, `0` when none. -/
def lastWsBytePos : List (List UChar) → Nat
  | [] => 0
  | g :: gs =>
    if 0 < lastWsBytePos gs then byteLen g + lastWsBytePos gs
    else if g.any (fun c => c.ws) then byteLen g else 0

/-- The grapheme-cluster position just past the last whitespace-containing
cluster of the scanned clusters, `0` when none. -/
def lastWsClusterPos : List (List UChar) → Nat
  | [] => 0
  | g :: gs =>
    if 0 < lastWsClusterPos gs then 1 + lastWsClusterPos gs
    else if g.any (fun c => c.ws) then 1 else 0

/-- The split position chosen by a chunking iteration, read declaratively off
the scanned clusters, with positions and span measured in UTF-8 bytes as in
the code (chunker.rs lines 59-64). -/
def splitPosBytes (rem : List UChar) : Nat :=
  if lastWsBytePos ((graphemes rem).take effectiveChunkLimit) >
      byteLen ((graphemes rem).take effectiveChunkLimit).flatten / MIN_BOUNDARY_RATIO
  then lastWsBytePos ((graphemes rem).take effectiveChunkLimit)
  else byteLen ((graphemes rem).take effectiveChunkLimit).flatten

/-- Following the spec's words (§4.3 step c): the first chunk of an iteration
when the split decision measures the boundary position and the scanned span in
grapheme clusters — split just after the last whitespace-containing cluster
when that cluster position lies beyond one third of the span, else at the
effective-limit cluster boundary. -/
def specFirstChunkGr (rem : List UChar) : List UChar :=
  trim (((graphemes rem).take effectiveChunkLimit).take
    (if lastWsClusterPos ((graphemes rem).take effectiveChunkLimit) >
        ((graphemes rem).take effectiveChunkLimit).length / MIN_BOUNDARY_RATIO
     then lastWsClusterPos ((graphemes rem).take effectiveChunkLimit)
     else ((graphemes rem).take effectiveChunkLimit).length)).flatten

/-- The letter a (one UTF-8 byte, not whitespace). -/
def aCh : UChar := mkAscii 0x61

/-- The space character. -/
def spCh : UChar := mkAscii 0x20

/-- Counterexample input for the single-chunk claim: a space then `a`. -/
def exC2 : List UChar := [spCh, aCh]

/-- Counterexample input for the split-measurement claim: 330 one-byte
letters, a space, then 670 two-byte letters (1001 grapheme clusters). -/
def exC3 : List UChar :=
  List.replicate 330 aCh ++ [spCh] ++ List.replicate 670 eAcute

/-- Counterexample input for the formatted-length invariant: a run of
`effectiveChunkLimit * 100` letters, chunked into 100 maximal chunks. -/
def bigC1 : List UChar := List.replicate (effectiveChunkLimit * 100) aCh

/-- Counterexample input for the CLI length guard: 2501 two-byte letters
(5002 UTF-8 bytes but only 2501 grapheme clusters). -/
def exC9 : List UChar := List.replicate 2501 eAcute

/-! ### Basic lemmas about the character model -/

theorem byteLen_nil : byteLen [] = 0 := rfl

theorem byteLen_cons (c : UChar) (s : List UChar) : byteLen (c :: s) = c.bytes + byteLen s := by
  simp [byteLen]

theorem byteLen_append (s t : List UChar) : byteLen (s ++ t) = byteLen s + byteLen t := by
  simp [byteLen]

theorem byteLen_replicate (n : Nat) (c : UChar) : byteLen (List.replicate n c) = n * c.bytes := by
  induction n with
  | zero => simp [byteLen]
  | succ k ih => simp [List.replicate_succ, byteLen_cons, ih, Nat.succ_mul]; omega

theorem graphemesGo_flatten (cs : List UChar) :
    ∀ cur, (graphemesGo cur cs).flatten = cur.reverse ++ cs := by
  induction cs with
  | nil => intro cur; simp [graphemesGo]
  | cons c cs ih =>
    intro cur
    by_cases h : c.ext
    · simp [graphemesGo, h, ih]
    · simp [graphemesGo, h, ih]

theorem graphemes_flatten (s : List UChar) : (graphemes s).flatten = s := by
  cases s with
  | nil => rfl
  | cons c cs => simp [graphemes, graphemesGo_flatten]

theorem graphemesGo_length (cs : List UChar) :
    ∀ cur, (graphemesGo cur cs).length = 1 + neCount cs := by
  induction cs with
  | nil => intro cur; simp [graphemesGo, neCount]
  | cons c cs ih =>
    intro cur
    by_cases h : c.ext
    · simp [graphemesGo, h, ih, neCount, List.filter_cons]
    · simp [graphemesGo, h, ih, neCount, List.filter_cons]
      omega

theorem graphemeCount_cons (c : UChar) (cs : List UChar) :
    graphemeCount (c :: cs) = 1 + neCount cs := by
  simp [graphemeCount, graphemes, graphemesGo_length]

theorem neCount_le_graphemeCount (s : List UChar) : neCount s ≤ graphemeCount s := by
  cases s with
  | nil => simp [neCount, graphemeCount, graphemes]
  | cons c cs =>
    rw [graphemeCount_cons]
    simp [neCount, List.filter_cons]
    by_cases h : c.ext <;> simp [h] <;> omega

theorem graphemeCount_le_of_sublist {s t : List UChar} (h : List.Sublist s t) :
    graphemeCount s ≤ graphemeCount t := by
  induction h with
  | slnil => exact Nat.le_refl _
  | cons a h ih =>
    rename_i l₁ l₂
    refine Nat.le_trans ih ?_
    cases l₂ with
    | nil => simp [graphemeCount, graphemes]
    | cons b t' =>
      rw [graphemeCount_cons, graphemeCount_cons]
      have : neCount t' ≤ neCount (b :: t') := by
        simp [neCount, List.filter_cons]
        by_cases hb : b.ext <;> simp [hb] <;> omega
      omega
  | cons₂ a h ih =>
    rename_i l₁ l₂
    rw [graphemeCount_cons, graphemeCount_cons]
    have : neCount l₁ ≤ neCount l₂ :=
      List.Sublist.length_le (List.Sublist.filter (fun c => !c.ext) h)
    omega

theorem graphemeCount_append_le (s t : List UChar) :
    graphemeCount (s ++ t) ≤ graphemeCount s + graphemeCount t := by
  cases s with
  | nil => simp [graphemeCount, graphemes]
  | cons c cs =>
    rw [List.cons_append, graphemeCount_cons, graphemeCount_cons]
    have h1 : neCount (cs ++ t) = neCount cs + neCount t := by
      simp [neCount, List.filter_append]
    have h2 : neCount t ≤ graphemeCount t := neCount_le_graphemeCount t
    omega

theorem graphemeCount_le_length (s : List UChar) : graphemeCount s ≤ s.length := by
  cases s with
  | nil => simp [graphemeCount, graphemes]
  | cons c cs =>
    rw [graphemeCount_cons]
    have : neCount cs ≤ cs.length := List.length_filter_le _ _
    simp; omega

theorem graphemes_all_nonext (s : List UChar) (h : ∀ c ∈ s, c.ext = false) :
    graphemes s = s.map (fun c => [c]) := by
  induction s with
  | nil => rfl
  | cons c cs ih =>
    have hc : c.ext = false := h c (by simp)
    cases cs with
    | nil => simp [graphemes, graphemesGo]
    | cons d ds =>
      have hd : d.ext = false := h d (by simp)
      have := ih (fun x hx => h x (by simp [hx]))
      simp [graphemes, graphemesGo, hd] at this ⊢
      exact this

theorem graphemeCount_all_nonext (s : List UChar) (h : ∀ c ∈ s, c.ext = false) :
    graphemeCount s = s.length := by
  simp [graphemeCount, graphemes_all_nonext s h]

theorem graphemeCount_replicate (n : Nat) (c : UChar) (h : c.ext = false) :
    graphemeCount (List.replicate n c) = n := by
  rw [graphemeCount_all_nonext]
  · simp
  · intro x hx
    rw [List.eq_of_mem_replicate hx]; exact h

/-! ### Lemmas about `trim`, `takeBytes`, `dropBytes` -/

theorem trim_isInfix (s : List UChar) : List.IsInfix (trim s) s := by
  have h1 : List.IsSuffix (s.dropWhile (fun c => c.ws)) s := List.dropWhile_suffix _
  obtain ⟨p, hp⟩ := h1
  have h2 : List.IsSuffix ((s.dropWhile (fun c => c.ws)).reverse.dropWhile (fun c => c.ws))
      (s.dropWhile (fun c => c.ws)).reverse := List.dropWhile_suffix _
  obtain ⟨q, hq⟩ := h2
  refine ⟨p, q.reverse, ?_⟩
  have hu : trim s ++ q.reverse = s.dropWhile (fun c => c.ws) := by
    unfold trim
    rw [← List.reverse_append, hq, List.reverse_reverse]
  rw [List.append_assoc, hu, hp]

theorem trim_sublist (s : List UChar) : List.Sublist (trim s) s :=
  (trim_isInfix s).sublist

theorem graphemeCount_trim_le (s : List UChar) : graphemeCount (trim s) ≤ graphemeCount s :=
  graphemeCount_le_of_sublist (trim_sublist s)

theorem filter_dropWhile_nws (s : List UChar) :
    (s.dropWhile (fun c => c.ws)).filter (fun c => !c.ws) = s.filter (fun c => !c.ws) := by
  induction s with
  | nil => rfl
  | cons c cs ih =>
    by_cases h : c.ws
    · simp [List.dropWhile_cons, h, ih, List.filter_cons]
    · simp [List.dropWhile_cons, h, List.filter_cons]

theorem filter_trim_nws (s : List UChar) :
    (trim s).filter (fun c => !c.ws) = s.filter (fun c => !c.ws) := by
  unfold trim
  rw [List.filter_reverse, filter_dropWhile_nws, List.filter_reverse, List.reverse_reverse,
    filter_dropWhile_nws]

theorem trim_eq_nil_filter (s : List UChar) (h : trim s = []) :
    s.filter (fun c => !c.ws) = [] := by
  rw [← filter_trim_nws, h]; rfl

theorem trim_eq_self (s : List UChar) (h1 : ∀ c, s.head? = some c → c.ws = false)
    (h2 : ∀ c, s.getLast? = some c → c.ws = false) : trim s = s := by
  unfold trim
  have e1 : s.dropWhile (fun c => c.ws) = s := by
    cases s with
    | nil => rfl
    | cons c cs => rw [List.dropWhile_cons_of_neg]; simp [h1 c rfl]
  rw [e1]
  have e2 : s.reverse.dropWhile (fun c => c.ws) = s.reverse := by
    cases hr : s.reverse with
    | nil => rfl
    | cons c cs =>
      rw [List.dropWhile_cons_of_neg]
      have : s.getLast? = some c := by
        rw [← List.head?_reverse, hr]; rfl
      simp [h2 c this]
  rw [e2, List.reverse_reverse]

theorem trim_append_ws (s : List UChar) (w : UChar) (hw : w.ws = true)
    (h1 : ∀ c, s.head? = some c → c.ws = false)
    (h2 : ∀ c, s.getLast? = some c → c.ws = false) : trim (s ++ [w]) = s := by
  cases s with
  | nil => simp [trim, List.dropWhile_cons, hw]
  | cons c0 cs0 =>
    unfold trim
    have e1 : ((c0 :: cs0) ++ [w]).dropWhile (fun c => c.ws) = (c0 :: cs0) ++ [w] := by
      rw [List.cons_append, List.dropWhile_cons_of_neg]; simp [h1 c0 rfl]
    rw [e1, List.reverse_append]
    have e15 : ([w].reverse ++ (c0 :: cs0).reverse).dropWhile (fun c => c.ws) =
        (c0 :: cs0).reverse.dropWhile (fun c => c.ws) := by
      simp [List.dropWhile_cons, hw]
    rw [e15]
    have e2 : (c0 :: cs0).reverse.dropWhile (fun c => c.ws) = (c0 :: cs0).reverse := by
      cases hr : (c0 :: cs0).reverse with
      | nil => rfl
      | cons c cs =>
        rw [List.dropWhile_cons_of_neg]
        have : (c0 :: cs0).getLast? = some c := by
          rw [← List.head?_reverse, hr]; rfl
        simp [h2 c this]
    rw [e2, List.reverse_reverse]

theorem takeBytes_append_dropBytes (s : List UChar) (n : Nat) :
    takeBytes s n ++ dropBytes s n = s := by
  induction s generalizing n with
  | nil => rfl
  | cons c cs ih =>
    by_cases h : n = 0
    · simp [takeBytes, dropBytes, h]
    · simp [takeBytes, dropBytes, h, ih]

theorem takeBytes_isPre (s : List UChar) (n : Nat) : List.IsPrefix (takeBytes s n) s :=
  ⟨dropBytes s n, takeBytes_append_dropBytes s n⟩

theorem dropBytes_isSuf (s : List UChar) (n : Nat) : List.IsSuffix (dropBytes s n) s :=
  ⟨takeBytes s n, takeBytes_append_dropBytes s n⟩

theorem dropBytes_length_le (s : List UChar) (n : Nat) :
    (dropBytes s n).length ≤ s.length :=
  (dropBytes_isSuf s n).sublist.length_le

theorem dropBytes_length_lt (s : List UChar) (n : Nat) (hs : s ≠ []) (hn : n ≠ 0) :
    (dropBytes s n).length < s.length := by
  cases s with
  | nil => exact absurd rfl hs
  | cons c cs =>
    rw [show dropBytes (c :: cs) n = dropBytes cs (n - c.bytes) from by
      simp only [dropBytes, if_neg hn]]
    have := dropBytes_length_le cs (n - c.bytes)
    simp only [List.length_cons]
    omega

theorem takeBytes_mono (s : List UChar) (n m : Nat) (h : n ≤ m) :
    List.IsPrefix (takeBytes s n) (takeBytes s m) := by
  induction s generalizing n m with
  | nil => exact ⟨[], rfl⟩
  | cons c cs ih =>
    by_cases hn : n = 0
    · subst hn
      rw [show takeBytes (c :: cs) 0 = [] from by simp [takeBytes]]
      exact List.nil_prefix
    · have hm : m ≠ 0 := by omega
      simp only [takeBytes, if_neg hn, if_neg hm]
      exact List.cons_prefix_cons.mpr ⟨rfl, ih (n - c.bytes) (m - c.bytes) (by omega)⟩

theorem takeBytes_byteLen_isPre (s t : List UChar) :
    List.IsPrefix (takeBytes (s ++ t) (byteLen s)) s := by
  induction s with
  | nil =>
    rw [show takeBytes ([] ++ t) (byteLen []) = [] from by
      cases t <;> simp [takeBytes, byteLen]]
  | cons c cs ih =>
    by_cases h : byteLen (c :: cs) = 0
    · rw [show takeBytes ((c :: cs) ++ t) (byteLen (c :: cs)) = [] from by
        simp [takeBytes, h]]
      exact List.nil_prefix
    · rw [List.cons_append]
      simp only [takeBytes, if_neg h]
      rw [byteLen_cons, Nat.add_sub_cancel_left]
      exact List.cons_prefix_cons.mpr ⟨rfl, ih⟩

theorem takeBytes_exact (s t : List UChar) (h : ∀ c ∈ s, 1 ≤ c.bytes) :
    takeBytes (s ++ t) (byteLen s) = s := by
  induction s with
  | nil =>
    simp [byteLen]
    cases t with
    | nil => rfl
    | cons c cs => simp [takeBytes]
  | cons c cs ih =>
    have hc : 1 ≤ c.bytes := h c (by simp)
    have hne : byteLen (c :: cs) ≠ 0 := by rw [byteLen_cons]; omega
    rw [List.cons_append]
    simp only [takeBytes, if_neg hne]
    rw [byteLen_cons, Nat.add_sub_cancel_left]
    rw [ih (fun x hx => h x (by simp [hx]))]

theorem dropBytes_exact (s t : List UChar) (h : ∀ c ∈ s, 1 ≤ c.bytes) :
    dropBytes (s ++ t) (byteLen s) = t := by
  have h1 := takeBytes_append_dropBytes (s ++ t) (byteLen s)
  rw [takeBytes_exact s t h] at h1
  exact List.append_cancel_left h1

/-! ### Lemmas about the scan and cluster shape -/

theorem scanGo_fst (gs : List (List UChar)) :
    ∀ b w, (scanGo (b, w) gs).1 = b + byteLen gs.flatten := by
  induction gs with
  | nil => intro b w; simp [scanGo, byteLen]
  | cons g gs ih =>
    intro b w
    simp only [scanGo, ih, List.flatten_cons, byteLen_append]
    omega

theorem scanGo_snd_le_fst (gs : List (List UChar)) :
    ∀ b w, w ≤ b → (scanGo (b, w) gs).2 ≤ (scanGo (b, w) gs).1 := by
  induction gs with
  | nil => intro b w h; simpa [scanGo] using h
  | cons g gs ih =>
    intro b w h
    simp only [scanGo]
    by_cases hws : g.any (fun c => c.ws)
    · simp only [hws, if_pos]
      exact ih _ _ (Nat.le_refl _)
    · simp only [hws, Bool.false_eq_true, if_neg, if_false]
      exact ih _ _ (by omega)

theorem scanFold_snd_le_fst (gs : List (List UChar)) :
    (scanFold gs).2 ≤ (scanFold gs).1 :=
  scanGo_snd_le_fst gs 0 0 (Nat.le_refl 0)

theorem scanFold_fst (gs : List (List UChar)) :
    (scanFold gs).1 = byteLen gs.flatten := by
  simpa using scanGo_fst gs 0 0

theorem scanGo_no_ws (gs : List (List UChar)) (hws : ∀ g ∈ gs, g.any (fun c => c.ws) = false) :
    ∀ b w, scanGo (b, w) gs = (b + byteLen gs.flatten, w) := by
  induction gs with
  | nil => intro b w; simp [scanGo, byteLen]
  | cons g gs ih =>
    intro b w
    have hg := hws g (by simp)
    simp only [scanGo, hg, Bool.false_eq_true, if_false,
      ih (fun x hx => hws x (by simp [hx])), List.flatten_cons, byteLen_append]
    rw [Prod.mk.injEq]
    exact ⟨by omega, rfl⟩

theorem graphemesGo_clusters (cs : List UChar) :
    ∀ cur h t, cur.reverse = h :: t → (∀ x ∈ t, x.ext = true) →
    ∀ g ∈ graphemesGo cur cs, ∃ h2 t2, g = h2 :: t2 ∧ ∀ x ∈ t2, x.ext = true := by
  induction cs with
  | nil =>
    intro cur h t hc ht g hg
    simp [graphemesGo] at hg
    exact ⟨h, t, by rw [hg, hc], ht⟩
  | cons c cs ih =>
    intro cur h t hc ht g hg
    by_cases hext : c.ext
    · rw [graphemesGo, if_pos hext] at hg
      refine ih (c :: cur) h (t ++ [c]) ?_ ?_ g hg
      · simp [hc]
      · intro x hx
        rcases List.mem_append.mp hx with h1 | h1
        · exact ht x h1
        · simp at h1; rw [h1]; exact hext
    · rw [graphemesGo, if_neg hext] at hg
      rcases List.mem_cons.mp hg with h1 | h1
      · exact ⟨h, t, by rw [h1, hc], ht⟩
      · exact ih [c] c [] rfl (by simp) g h1

theorem graphemes_clusters (s : List UChar) :
    ∀ g ∈ graphemes s, ∃ h2 t2, g = h2 :: t2 ∧ ∀ x ∈ t2, x.ext = true := by
  cases s with
  | nil => intro g hg; simp [graphemes] at hg
  | cons c cs => exact graphemesGo_clusters cs [c] c [] rfl (by simp)

theorem graphemeCount_cluster (g : List UChar) (h2 : UChar) (t2 : List UChar)
    (hg : g = h2 :: t2) (ht : ∀ x ∈ t2, x.ext = true) : graphemeCount g = 1 := by
  subst hg
  rw [graphemeCount_cons]
  have : neCount t2 = 0 := by
    simp only [neCount, List.length_eq_zero, List.filter_eq_nil_iff]
    intro a ha
    simp [ht a ha]
  omega

theorem graphemeCount_flatten_le (L : List (List UChar))
    (hL : ∀ g ∈ L, graphemeCount g ≤ 1) : graphemeCount L.flatten ≤ L.length := by
  induction L with
  | nil => simp [graphemeCount, graphemes]
  | cons g L ih =>
    rw [List.flatten_cons]
    calc graphemeCount (g ++ L.flatten) ≤ graphemeCount g + graphemeCount L.flatten :=
          graphemeCount_append_le _ _
      _ ≤ 1 + L.length := by
          have h1 := hL g (by simp)
          have h2 := ih (fun x hx => hL x (by simp [hx]))
          omega
      _ = (g :: L).length := by simp; omega

theorem graphemes_ne_nil (s : List UChar) (h : s ≠ []) : graphemes s ≠ [] := by
  cases s with
  | nil => exact absurd rfl h
  | cons c cs =>
    rw [graphemes]
    cases cs with
    | nil => simp [graphemesGo]
    | cons d ds =>
      rw [graphemesGo]
      by_cases hd : d.ext <;> simp [hd]
      intro hcontra
      have := congrArg List.length hcontra
      rw [graphemesGo_length] at this
      simp at this

/-! ### Lemmas about `chunkStep` and `chunkLoop` -/

theorem chunkStep_cases (rem : List UChar) :
    (∃ n, 0 < n ∧ n ≤ (scanFold ((graphemes rem).take effectiveChunkLimit)).1 ∧
      chunkStep rem =
        (trim (takeBytes rem n), (dropBytes rem n).dropWhile (fun c => c.ws))) ∨
    chunkStep rem = (rem.take 1, rem.drop 1) := by
  simp only [chunkStep]
  set bp := (scanFold ((graphemes rem).take effectiveChunkLimit)).1 with hbp
  set lwb := (scanFold ((graphemes rem).take effectiveChunkLimit)).2 with hlwb
  have hle : lwb ≤ bp := scanFold_snd_le_fst _
  by_cases hs : (if lwb > bp / MIN_BOUNDARY_RATIO then lwb else bp) > 0
  · left
    refine ⟨if lwb > bp / MIN_BOUNDARY_RATIO then lwb else bp, hs, ?_, by rw [if_pos hs]⟩
    by_cases hb : lwb > bp / MIN_BOUNDARY_RATIO
    · rw [if_pos hb]; exact hle
    · rw [if_neg hb]
  · right
    rw [if_neg hs]

theorem chunkStep_snd_length_lt (rem : List UChar) (h : rem ≠ []) :
    (chunkStep rem).2.length < rem.length := by
  rcases chunkStep_cases rem with ⟨n, hn, _, heq⟩ | heq
  · rw [heq]
    calc ((dropBytes rem n).dropWhile (fun c => c.ws)).length
        ≤ (dropBytes rem n).length := (List.dropWhile_suffix _).sublist.length_le
      _ < rem.length := dropBytes_length_lt rem n h (by omega)
  · rw [heq]
    cases rem with
    | nil => exact absurd rfl h
    | cons c cs => simp

theorem takeBytes_le_scan_isPre (rem : List UChar) (n : Nat)
    (hn : n ≤ (scanFold ((graphemes rem).take effectiveChunkLimit)).1) :
    List.IsPrefix (takeBytes rem n) ((graphemes rem).take effectiveChunkLimit).flatten := by
  set scanned := (graphemes rem).take effectiveChunkLimit with hsc
  have hflat : scanned.flatten ++ ((graphemes rem).drop effectiveChunkLimit).flatten = rem := by
    rw [← List.flatten_append, hsc, List.take_append_drop, graphemes_flatten]
  have h1 : List.IsPrefix (takeBytes rem n) (takeBytes rem (byteLen scanned.flatten)) := by
    rw [scanFold_fst] at hn
    exact takeBytes_mono rem n _ hn
  have h2 : List.IsPrefix (takeBytes rem (byteLen scanned.flatten)) scanned.flatten := by
    conv_lhs => rw [← hflat]
    exact takeBytes_byteLen_isPre _ _
  exact h1.trans h2

theorem graphemeCount_scan_flatten_le (rem : List UChar) :
    graphemeCount ((graphemes rem).take effectiveChunkLimit).flatten ≤ effectiveChunkLimit := by
  have h1 : graphemeCount ((graphemes rem).take effectiveChunkLimit).flatten ≤
      ((graphemes rem).take effectiveChunkLimit).length := by
    apply graphemeCount_flatten_le
    intro g hg
    obtain ⟨h2, t2, hgeq, ht⟩ := graphemes_clusters rem g (List.mem_of_mem_take hg)
    rw [graphemeCount_cluster g h2 t2 hgeq ht]
  calc graphemeCount ((graphemes rem).take effectiveChunkLimit).flatten
      ≤ ((graphemes rem).take effectiveChunkLimit).length := h1
    _ ≤ effectiveChunkLimit := by simp

theorem chunkStep_fst_count_le (rem : List UChar) :
    graphemeCount (chunkStep rem).1 ≤ effectiveChunkLimit := by
  rcases chunkStep_cases rem with ⟨n, _, hle, heq⟩ | heq
  · rw [heq]
    calc graphemeCount (trim (takeBytes rem n))
        ≤ graphemeCount (takeBytes rem n) := graphemeCount_trim_le _
      _ ≤ graphemeCount ((graphemes rem).take effectiveChunkLimit).flatten :=
          graphemeCount_le_of_sublist (takeBytes_le_scan_isPre rem n hle).sublist
      _ ≤ effectiveChunkLimit := graphemeCount_scan_flatten_le rem
  · rw [heq]
    calc graphemeCount (rem.take 1) ≤ (rem.take 1).length := graphemeCount_le_length _
      _ ≤ 1 := by simp
      _ ≤ effectiveChunkLimit := by norm_num [effectiveChunkLimit, MAX_MESSAGE_LENGTH,
            PREFIX_RESERVE_LENGTH]

theorem chunkLoop_count_le (fuel : Nat) :
    ∀ rem, ∀ c ∈ chunkLoop fuel rem, graphemeCount c ≤ effectiveChunkLimit := by
  induction fuel with
  | zero => intro rem c hc; simp [chunkLoop] at hc
  | succ fuel ih =>
    intro rem c hc
    rw [chunkLoop] at hc
    by_cases h0 : rem = []
    · simp [h0] at hc
    · rw [if_neg h0] at hc
      by_cases h1 : graphemeCount rem ≤ effectiveChunkLimit
      · rw [if_pos h1] at hc
        simp at hc
        rw [hc]
        exact Nat.le_trans (graphemeCount_trim_le rem) h1
      · rw [if_neg h1] at hc
        rcases List.mem_cons.mp hc with h2 | h2
        · rw [h2]; exact chunkStep_fst_count_le rem
        · exact ih _ c h2

theorem chunkLoop_filter (fuel : Nat) :
    ∀ rem, rem.length ≤ fuel →
    (chunkLoop fuel rem).flatten.filter (fun c => !c.ws) = rem.filter (fun c => !c.ws) := by
  induction fuel with
  | zero =>
    intro rem hlen
    rw [List.length_eq_zero.mp (Nat.le_zero.mp hlen)]
    simp [chunkLoop]
  | succ fuel ih =>
    intro rem hlen
    rw [chunkLoop]
    by_cases h0 : rem = []
    · simp [h0]
    · rw [if_neg h0]
      by_cases h1 : graphemeCount rem ≤ effectiveChunkLimit
      · rw [if_pos h1]
        simp only [List.flatten_cons, List.flatten_nil, List.append_nil]
        exact filter_trim_nws rem
      · rw [if_neg h1]
        have hprog : (chunkStep rem).2.length ≤ fuel := by
          have := chunkStep_snd_length_lt rem h0
          omega
        rw [List.flatten_cons, List.filter_append, ih _ hprog]
        rcases chunkStep_cases rem with ⟨n, _, _, heq⟩ | heq
        · rw [heq]
          simp only
          rw [filter_trim_nws, filter_dropWhile_nws, ← List.filter_append,
            takeBytes_append_dropBytes]
        · rw [heq]
          simp only
          rw [← List.filter_append, List.take_append_drop]

theorem chunkLoop_isInfix (fuel : Nat) :
    ∀ rem, ∀ c ∈ chunkLoop fuel rem, List.IsInfix c rem := by
  induction fuel with
  | zero => intro rem c hc; simp [chunkLoop] at hc
  | succ fuel ih =>
    intro rem c hc
    rw [chunkLoop] at hc
    by_cases h0 : rem = []
    · simp [h0] at hc
    · rw [if_neg h0] at hc
      by_cases h1 : graphemeCount rem ≤ effectiveChunkLimit
      · rw [if_pos h1] at hc
        simp at hc
        rw [hc]
        exact trim_isInfix rem
      · rw [if_neg h1] at hc
        rcases List.mem_cons.mp hc with h2 | h2
        · rw [h2]
          rcases chunkStep_cases rem with ⟨n, _, _, heq⟩ | heq
          · rw [heq]
            exact (trim_isInfix _).trans ((takeBytes_isPre rem n).isInfix)
          · rw [heq]
            exact List.IsPrefix.isInfix ⟨rem.drop 1, List.take_append_drop 1 rem⟩
        · have hsub : List.IsInfix (chunkStep rem).2 rem := by
            rcases chunkStep_cases rem with ⟨n, _, _, heq⟩ | heq
            · rw [heq]
              exact ((List.dropWhile_suffix _).trans (dropBytes_isSuf rem n)).isInfix
            · rw [heq]
              exact (List.drop_suffix 1 rem).isInfix
          exact (ih _ c h2).trans hsub

/-! ### The chunking loop on uniform single-byte runs -/

theorem flatten_replicate_singleton (n : Nat) (a : UChar) :
    (List.replicate n [a]).flatten = List.replicate n a := by
  induction n with
  | zero => rfl
  | succ k ih => simp [List.replicate_succ, ih]

theorem dropWhile_replicate_of_neg (n : Nat) (a : UChar) (p : UChar → Bool) (h : p a = false) :
    (List.replicate n a).dropWhile p = List.replicate n a := by
  cases n with
  | zero => rfl
  | succ k => rw [List.replicate_succ, List.dropWhile_cons_of_neg (by simp [h])]

theorem head?_replicate_eq (n : Nat) (a c : UChar) (h : (List.replicate n a).head? = some c) :
    c = a := by
  cases n with
  | zero => simp at h
  | succ k => rw [List.replicate_succ] at h; simp at h; exact h.symm

theorem getLast?_replicate_eq (n : Nat) (a c : UChar) (h : (List.replicate n a).getLast? = some c) :
    c = a := by
  rw [← List.head?_reverse, List.reverse_replicate] at h
  exact head?_replicate_eq n a c h

theorem trim_replicate (n : Nat) (a : UChar) (ha : a.ws = false) :
    trim (List.replicate n a) = List.replicate n a := by
  apply trim_eq_self
  · intro c hc; rw [head?_replicate_eq n a c hc]; exact ha
  · intro c hc; rw [getLast?_replicate_eq n a c hc]; exact ha

theorem chunkLoop_replicate_base (fuel m : Nat) (a : UChar) (ha : a.ws = false)
    (h1 : 1 ≤ m) (h2 : m ≤ effectiveChunkLimit) (haext : a.ext = false) :
    chunkLoop (fuel + 1) (List.replicate m a) = [List.replicate m a] := by
  rw [chunkLoop]
  rw [if_neg (by simp; omega)]
  rw [if_pos (by rw [graphemeCount_replicate m a haext]; exact h2)]
  rw [trim_replicate m a ha]

theorem chunkStep_replicate (m : Nat) (a : UChar) (ha : a.ws = false)
    (haext : a.ext = false) (hab : a.bytes = 1) (hm : effectiveChunkLimit < m) :
    chunkStep (List.replicate m a) =
      (List.replicate effectiveChunkLimit a,
       List.replicate (m - effectiveChunkLimit) a) := by
  have hgr : graphemes (List.replicate m a) = List.replicate m [a] := by
    rw [graphemes_all_nonext _ (fun c hc => by rw [List.eq_of_mem_replicate hc]; exact haext)]
    simp
  have htake : (graphemes (List.replicate m a)).take effectiveChunkLimit =
      List.replicate effectiveChunkLimit [a] := by
    rw [hgr, List.take_replicate, Nat.min_eq_left (by omega)]
  have hscan : scanFold ((graphemes (List.replicate m a)).take effectiveChunkLimit) =
      (effectiveChunkLimit, 0) := by
    rw [htake, scanFold, scanGo_no_ws _ (fun g hg => by
      rw [List.eq_of_mem_replicate hg]; simp [ha])]
    rw [flatten_replicate_singleton, byteLen_replicate, hab]
    simp
  have hscan1 : (scanFold ((graphemes (List.replicate m a)).take effectiveChunkLimit)).1 =
      effectiveChunkLimit := by rw [hscan]
  have hscan2 : (scanFold ((graphemes (List.replicate m a)).take effectiveChunkLimit)).2 =
      0 := by rw [hscan]
  simp only [chunkStep, hscan1, hscan2]
  rw [if_neg (show ¬(0 > effectiveChunkLimit / MIN_BOUNDARY_RATIO) from by decide)]
  rw [if_pos (show effectiveChunkLimit > 0 from by decide)]
  have hsum : effectiveChunkLimit + (m - effectiveChunkLimit) = m := by
    have := Nat.le_of_lt hm
    omega
  have hdecomp : List.replicate m a =
      List.replicate effectiveChunkLimit a ++ List.replicate (m - effectiveChunkLimit) a := by
    rw [← List.replicate_add, hsum]
  have hbl : byteLen (List.replicate effectiveChunkLimit a) = effectiveChunkLimit := by
    rw [byteLen_replicate, hab]; omega
  have hbytes : ∀ c ∈ List.replicate effectiveChunkLimit a, 1 ≤ c.bytes := by
    intro c hc; rw [List.eq_of_mem_replicate hc]; omega
  have htb : takeBytes (List.replicate m a) effectiveChunkLimit =
      List.replicate effectiveChunkLimit a := by
    have h := takeBytes_exact (List.replicate effectiveChunkLimit a)
      (List.replicate (m - effectiveChunkLimit) a) hbytes
    rw [hbl, ← hdecomp] at h
    exact h
  have hdb : dropBytes (List.replicate m a) effectiveChunkLimit =
      List.replicate (m - effectiveChunkLimit) a := by
    have h := dropBytes_exact (List.replicate effectiveChunkLimit a)
      (List.replicate (m - effectiveChunkLimit) a) hbytes
    rw [hbl, ← hdecomp] at h
    exact h
  rw [Prod.mk.injEq]
  refine ⟨?_, ?_⟩
  · rw [htb, trim_replicate _ a ha]
  · rw [hdb, dropWhile_replicate_of_neg _ a _ (by simp [ha])]

theorem chunkLoop_replicate_step (fuel m : Nat) (a : UChar) (ha : a.ws = false)
    (haext : a.ext = false) (hab : a.bytes = 1) (hm : effectiveChunkLimit < m) :
    chunkLoop (fuel + 1) (List.replicate m a) =
      List.replicate effectiveChunkLimit a ::
        chunkLoop fuel (List.replicate (m - effectiveChunkLimit) a) := by
  rw [chunkLoop]
  rw [if_neg (by simp; omega)]
  rw [if_neg (by rw [graphemeCount_replicate m a haext]; omega)]
  rw [chunkStep_replicate m a ha haext hab hm]

theorem chunkLoop_replicate_mul (a : UChar) (ha : a.ws = false)
    (haext : a.ext = false) (hab : a.bytes = 1) :
    ∀ k fuel, 1 ≤ k → k ≤ fuel →
    chunkLoop fuel (List.replicate (effectiveChunkLimit * k) a) =
      List.replicate k (List.replicate effectiveChunkLimit a) := by
  intro k
  induction k with
  | zero => intro fuel h1 _; omega
  | succ k ih =>
    intro fuel h1 h2
    obtain ⟨f, rfl⟩ : ∃ f, fuel = f + 1 := ⟨fuel - 1, by omega⟩
    by_cases hk : k = 0
    · subst hk
      rw [Nat.mul_one]
      rw [chunkLoop_replicate_base f effectiveChunkLimit a ha (by norm_num [effectiveChunkLimit,
        MAX_MESSAGE_LENGTH, PREFIX_RESERVE_LENGTH]) (Nat.le_refl _) haext]
      rfl
    · have e : effectiveChunkLimit = 991 := rfl
      have hgt : effectiveChunkLimit < effectiveChunkLimit * (k + 1) := by
        rw [e]; omega
      rw [chunkLoop_replicate_step f _ a ha haext hab hgt]
      have heq : effectiveChunkLimit * (k + 1) - effectiveChunkLimit =
          effectiveChunkLimit * k := by
        rw [e]; omega
      rw [heq, ih f (by omega) (by omega)]
      rw [List.replicate_succ]

/-! ### The scan's boundary position, declaratively -/

theorem scanGo_snd_eq (gs : List (List UChar)) (hb : ∀ g ∈ gs, 1 ≤ byteLen g) :
    ∀ b w, (scanGo (b, w) gs).2 =
      if 0 < lastWsBytePos gs then b + lastWsBytePos gs else w := by
  induction gs with
  | nil => intro b w; simp [scanGo, lastWsBytePos]
  | cons g gs ih =>
    intro b w
    have hg : 1 ≤ byteLen g := hb g (by simp)
    have ihgs := ih (fun x hx => hb x (by simp [hx]))
    rw [scanGo, ihgs]
    by_cases h1 : 0 < lastWsBytePos gs
    · rw [if_pos h1]
      have h2 : 0 < lastWsBytePos (g :: gs) := by
        rw [lastWsBytePos, if_pos h1]; omega
      rw [if_pos h2, lastWsBytePos, if_pos h1]
      omega
    · rw [if_neg h1]
      by_cases hws : g.any (fun c => c.ws)
      · rw [if_pos hws]
        have h2 : lastWsBytePos (g :: gs) = byteLen g := by
          rw [lastWsBytePos, if_neg h1, if_pos hws]
        rw [h2]
        rw [if_pos (by omega)]
      · rw [if_neg hws]
        have h2 : lastWsBytePos (g :: gs) = 0 := by
          rw [lastWsBytePos, if_neg h1, if_neg hws]
        rw [h2]
        simp

theorem scanFold_snd_eq (gs : List (List UChar)) (hb : ∀ g ∈ gs, 1 ≤ byteLen g) :
    (scanFold gs).2 = lastWsBytePos gs := by
  rw [scanFold, scanGo_snd_eq gs hb 0 0]
  by_cases h : 0 < lastWsBytePos gs
  · rw [if_pos h]; omega
  · rw [if_neg h]; omega

theorem lastWsBytePos_no_ws (gs : List (List UChar))
    (h : ∀ g ∈ gs, g.any (fun c => c.ws) = false) : lastWsBytePos gs = 0 := by
  induction gs with
  | nil => rfl
  | cons g gs ih =>
    rw [lastWsBytePos, ih (fun x hx => h x (by simp [hx])),
      if_neg (by omega), if_neg (by simp [h g (by simp)])]

theorem lastWsClusterPos_no_ws (gs : List (List UChar))
    (h : ∀ g ∈ gs, g.any (fun c => c.ws) = false) : lastWsClusterPos gs = 0 := by
  induction gs with
  | nil => rfl
  | cons g gs ih =>
    rw [lastWsClusterPos, ih (fun x hx => h x (by simp [hx])),
      if_neg (by omega), if_neg (by simp [h g (by simp)])]

theorem lastWsBytePos_append (gs1 gs2 : List (List UChar)) :
    lastWsBytePos (gs1 ++ gs2) =
      if 0 < lastWsBytePos gs2 then byteLen gs1.flatten + lastWsBytePos gs2
      else lastWsBytePos gs1 := by
  induction gs1 with
  | nil =>
    by_cases h : 0 < lastWsBytePos gs2
    · rw [List.nil_append, if_pos h]; simp [byteLen]
    · rw [List.nil_append, if_neg h, lastWsBytePos]; omega
  | cons g gs1 ih =>
    rw [List.cons_append, lastWsBytePos, ih]
    by_cases h2 : 0 < lastWsBytePos gs2
    · rw [if_pos h2, if_pos h2]
      rw [if_pos (by omega)]
      rw [List.flatten_cons, byteLen_append]
      omega
    · rw [if_neg h2, if_neg h2, lastWsBytePos]

theorem lastWsClusterPos_append (gs1 gs2 : List (List UChar)) :
    lastWsClusterPos (gs1 ++ gs2) =
      if 0 < lastWsClusterPos gs2 then gs1.length + lastWsClusterPos gs2
      else lastWsClusterPos gs1 := by
  induction gs1 with
  | nil =>
    by_cases h : 0 < lastWsClusterPos gs2
    · rw [List.nil_append, if_pos h]; simp
    · rw [List.nil_append, if_neg h, lastWsClusterPos]; omega
  | cons g gs1 ih =>
    rw [List.cons_append, lastWsClusterPos, ih]
    by_cases h2 : 0 < lastWsClusterPos gs2
    · rw [if_pos h2, if_pos h2]
      rw [if_pos (by omega)]
      simp
      omega
    · rw [if_neg h2, if_neg h2, lastWsClusterPos]

theorem cluster_byteLen_ge_one (rem : List UChar) (hb : ∀ c ∈ rem, 1 ≤ c.bytes) :
    ∀ g ∈ (graphemes rem).take effectiveChunkLimit, 1 ≤ byteLen g := by
  intro g hg
  have hmem : g ∈ graphemes rem := List.mem_of_mem_take hg
  obtain ⟨h2, t2, hgeq, _⟩ := graphemes_clusters rem g hmem
  have hh2 : h2 ∈ rem := by
    rw [← graphemes_flatten rem]
    exact List.mem_flatten.mpr ⟨g, hmem, by rw [hgeq]; simp⟩
  rw [hgeq, byteLen_cons]
  have := hb h2 hh2
  omega

/-- The first chunk emitted on the multi-chunk path is the trimmed byte-prefix
of length `splitPosBytes rem` (the code's split decision, byte-measured). -/
theorem chunk_head_eq_byteSplit (rem : List UChar) (ht : trim rem ≠ [])
    (hcount : MAX_MESSAGE_LENGTH < graphemeCount rem) (hb : ∀ c ∈ rem, 1 ≤ c.bytes) :
    (chunk rem).head? = some (trim (takeBytes rem (splitPosBytes rem))) := by
  have hne : rem ≠ [] := by
    intro h0
    rw [h0] at hcount
    simp [graphemeCount, graphemes, MAX_MESSAGE_LENGTH] at hcount
  rw [chunk, if_neg ht, if_neg (by omega)]
  obtain ⟨f, hf⟩ : ∃ f, rem.length = f + 1 := by
    cases rem with
    | nil => exact absurd rfl hne
    | cons c cs => exact ⟨cs.length, rfl⟩
  rw [hf, chunkLoop, if_neg hne, if_neg (by
    have : effectiveChunkLimit ≤ MAX_MESSAGE_LENGTH := by decide
    omega)]
  rw [List.head?_cons]
  congr 1
  have hclb := cluster_byteLen_ge_one rem hb
  have hscan2 : (scanFold ((graphemes rem).take effectiveChunkLimit)).2 =
      lastWsBytePos ((graphemes rem).take effectiveChunkLimit) := scanFold_snd_eq _ hclb
  have hscan1 : (scanFold ((graphemes rem).take effectiveChunkLimit)).1 =
      byteLen ((graphemes rem).take effectiveChunkLimit).flatten := scanFold_fst _
  have hbp1 : 1 ≤ byteLen ((graphemes rem).take effectiveChunkLimit).flatten := by
    have hne2 : (graphemes rem).take effectiveChunkLimit ≠ [] := by
      have h1 : graphemes rem ≠ [] := graphemes_ne_nil rem hne
      cases hgr : graphemes rem with
      | nil => exact absurd hgr h1
      | cons g gs =>
        rw [show effectiveChunkLimit = 990 + 1 from rfl]
        simp [List.take_succ_cons]
    cases hsc : (graphemes rem).take effectiveChunkLimit with
    | nil => exact absurd hsc hne2
    | cons g gs =>
      have hg1 : 1 ≤ byteLen g := hclb g (by rw [hsc]; simp)
      rw [List.flatten_cons, byteLen_append]
      omega
  simp only [chunkStep, splitPosBytes, hscan1, hscan2]
  have hsplit_pos :
      0 < (if lastWsBytePos ((graphemes rem).take effectiveChunkLimit) >
            byteLen ((graphemes rem).take effectiveChunkLimit).flatten / MIN_BOUNDARY_RATIO
          then lastWsBytePos ((graphemes rem).take effectiveChunkLimit)
          else byteLen ((graphemes rem).take effectiveChunkLimit).flatten) := by
    by_cases hc : lastWsBytePos ((graphemes rem).take effectiveChunkLimit) >
        byteLen ((graphemes rem).take effectiveChunkLimit).flatten / MIN_BOUNDARY_RATIO
    · rw [if_pos hc]; exact Nat.lt_of_le_of_lt (Nat.zero_le _) hc
    · rw [if_neg hc]; omega
  rw [if_pos hsplit_pos]

/-! ### Evaluating the chunker on the mixed-width counterexample input -/

theorem flatten_map_singleton (l : List UChar) :
    (l.map (fun c => [c])).flatten = l := by
  induction l with
  | nil => rfl
  | cons c cs ih => simp [ih]

theorem head?_replicate_succ (n : Nat) (a : UChar) :
    (List.replicate (n + 1) a).head? = some a := by
  rw [List.replicate_succ]; rfl

theorem getLast?_replicate_succ (n : Nat) (a : UChar) :
    (List.replicate (n + 1) a).getLast? = some a := by
  rw [← List.head?_reverse, List.reverse_replicate, head?_replicate_succ]

theorem getLast?_append_replicate_succ (Y : List UChar) (n : Nat) (e : UChar) :
    (Y ++ List.replicate (n + 1) e).getLast? = some e := by
  rw [← List.head?_reverse, List.reverse_append, List.reverse_replicate,
    List.replicate_succ, List.cons_append]
  rfl

theorem exC3_ext (c : UChar) (hc : c ∈ exC3) : c.ext = false := by
  rw [exC3] at hc
  rcases List.mem_append.mp hc with h1 | h1
  · rcases List.mem_append.mp h1 with h2 | h2
    · rw [List.eq_of_mem_replicate h2]; rfl
    · simp at h2; rw [h2]; rfl
  · rw [List.eq_of_mem_replicate h1]; rfl

theorem exC3_bytes (c : UChar) (hc : c ∈ exC3) : 1 ≤ c.bytes := by
  rw [exC3] at hc
  rcases List.mem_append.mp hc with h1 | h1
  · rcases List.mem_append.mp h1 with h2 | h2
    · rw [List.eq_of_mem_replicate h2]; decide
    · simp at h2; rw [h2]; decide
  · rw [List.eq_of_mem_replicate h1]; decide

theorem exC3_decomp :
    exC3 = (List.replicate 330 aCh ++ [spCh] ++ List.replicate 660 eAcute) ++
      List.replicate 10 eAcute := by
  rw [exC3, show (670 : Nat) = 660 + 10 from rfl, List.replicate_add, ← List.append_assoc]

theorem exC3_X_length :
    (List.replicate 330 aCh ++ [spCh] ++ List.replicate 660 eAcute).length =
      effectiveChunkLimit := by
  rw [List.length_append, List.length_append, List.length_replicate,
    List.length_replicate]
  decide

theorem exC3_count : graphemeCount exC3 = 1001 := by
  rw [graphemeCount_all_nonext exC3 exC3_ext, exC3, List.length_append,
    List.length_append, List.length_replicate, List.length_replicate]
  decide

theorem exC3_trim : trim exC3 = exC3 := by
  apply trim_eq_self
  · intro c hc
    rw [exC3, show (330 : Nat) = 329 + 1 from rfl, List.replicate_succ,
      List.cons_append, List.cons_append, List.head?_cons] at hc
    injection hc with h
    rw [← h]; rfl
  · intro c hc
    rw [exC3, show (670 : Nat) = 669 + 1 from rfl,
      getLast?_append_replicate_succ] at hc
    injection hc with h
    rw [← h]; rfl

theorem exC3_scanned :
    (graphemes exC3).take effectiveChunkLimit =
      (List.replicate 330 aCh ++ [spCh] ++ List.replicate 660 eAcute).map
        (fun c => [c]) := by
  rw [graphemes_all_nonext exC3 exC3_ext, exC3_decomp, List.map_append]
  rw [List.take_left' (by rw [List.length_map]; exact exC3_X_length)]

theorem exC3_scanned_flat_byteLen :
    byteLen ((graphemes exC3).take effectiveChunkLimit).flatten = 1651 := by
  rw [exC3_scanned, flatten_map_singleton]
  simp only [byteLen_append, byteLen_replicate]
  decide

theorem exC3_lastWsByte :
    lastWsBytePos ((graphemes exC3).take effectiveChunkLimit) = 331 := by
  rw [exC3_scanned]
  rw [List.map_append, List.map_append, List.map_replicate, List.map_replicate,
    show List.map (fun c => [c]) [spCh] = [[spCh]] from rfl, List.append_assoc]
  rw [lastWsBytePos_append]
  have hsub : lastWsBytePos ([[spCh]] ++ List.replicate 660 [eAcute]) = 1 := by
    rw [lastWsBytePos_append]
    rw [lastWsBytePos_no_ws (List.replicate 660 [eAcute]) (fun g hg => by
      rw [List.eq_of_mem_replicate hg]; decide)]
    rw [if_neg (by omega)]
    decide
  rw [hsub, if_pos (by omega), flatten_replicate_singleton, byteLen_replicate]
  decide

theorem exC3_splitPos : splitPosBytes exC3 = 1651 := by
  rw [splitPosBytes]
  simp only [exC3_scanned_flat_byteLen, exC3_lastWsByte]
  rw [if_neg (by decide)]

theorem exC3_takeBytes :
    takeBytes exC3 1651 =
      List.replicate 330 aCh ++ [spCh] ++ List.replicate 660 eAcute := by
  have hb : ∀ c ∈ List.replicate 330 aCh ++ [spCh] ++ List.replicate 660 eAcute,
      1 ≤ c.bytes := by
    intro c hc
    exact exC3_bytes c (by rw [exC3_decomp]; exact List.mem_append.mpr (Or.inl hc))
  have h := takeBytes_exact _ (List.replicate 10 eAcute) hb
  rw [← exC3_decomp] at h
  have hbl : byteLen (List.replicate 330 aCh ++ [spCh] ++ List.replicate 660 eAcute) =
      1651 := by
    simp only [byteLen_append, byteLen_replicate]
    decide
  rw [hbl] at h
  exact h

theorem exC3_chunk_head :
    (chunk exC3).head? =
      some (List.replicate 330 aCh ++ [spCh] ++ List.replicate 660 eAcute) := by
  rw [chunk_head_eq_byteSplit exC3
    (by rw [exC3_trim, exC3]; intro h; exact absurd (congrArg List.length h) (by
      rw [List.length_append, List.length_append, List.length_replicate,
        List.length_replicate]; decide))
    (by rw [exC3_count]; decide) exC3_bytes]
  rw [exC3_splitPos, exC3_takeBytes]
  have htrim : trim (List.replicate 330 aCh ++ [spCh] ++ List.replicate 660 eAcute) =
      List.replicate 330 aCh ++ [spCh] ++ List.replicate 660 eAcute := by
    apply trim_eq_self
    · intro c hc
      rw [show (330 : Nat) = 329 + 1 from rfl, List.replicate_succ,
        List.cons_append, List.cons_append, List.head?_cons] at hc
      injection hc with h
      rw [← h]; rfl
    · intro c hc
      rw [show (660 : Nat) = 659 + 1 from rfl,
        getLast?_append_replicate_succ] at hc
      injection hc with h
      rw [← h]; rfl
  rw [htrim]

theorem exC3_specFirstChunkGr : specFirstChunkGr exC3 = List.replicate 330 aCh := by
  rw [specFirstChunkGr]
  rw [exC3_scanned]
  have hlen : ((List.replicate 330 aCh ++ [spCh] ++ List.replicate 660 eAcute).map
      (fun c => [c])).length = 991 := by
    rw [List.length_map, List.length_append, List.length_append,
      List.length_replicate, List.length_replicate]
    decide
  have hcluster :
      lastWsClusterPos ((List.replicate 330 aCh ++ [spCh] ++ List.replicate 660 eAcute).map
        (fun c => [c])) = 331 := by
    rw [List.map_append, List.map_append, List.map_replicate, List.map_replicate,
      show List.map (fun c => [c]) [spCh] = [[spCh]] from rfl, List.append_assoc]
    rw [lastWsClusterPos_append]
    have hsub : lastWsClusterPos ([[spCh]] ++ List.replicate 660 [eAcute]) = 1 := by
      rw [lastWsClusterPos_append]
      rw [lastWsClusterPos_no_ws (List.replicate 660 [eAcute]) (fun g hg => by
        rw [List.eq_of_mem_replicate hg]; decide)]
      rw [if_neg (by omega)]
      decide
    rw [hsub, if_pos (by omega), List.length_replicate]
  rw [hlen, hcluster]
  rw [if_pos (by decide)]
  have hmapdecomp :
      (List.replicate 330 aCh ++ [spCh] ++ List.replicate 660 eAcute).map (fun c => [c]) =
        (List.replicate 330 aCh ++ [spCh]).map (fun c => [c]) ++
          (List.replicate 660 eAcute).map (fun c => [c]) := by
    rw [← List.map_append]
  have hlen2 : ((List.replicate 330 aCh ++ [spCh]).map (fun c => [c])).length = 331 := by
    rw [List.length_map, List.length_append, List.length_replicate]
    decide
  rw [hmapdecomp, List.take_left' hlen2, flatten_map_singleton]
  apply trim_append_ws _ _ (show spCh.ws = true from rfl)
  · intro c hc
    rw [head?_replicate_eq 330 aCh c hc]; rfl
  · intro c hc
    rw [getLast?_replicate_eq 330 aCh c hc]; rfl

/-! ### Lemmas about labels and `format_chunks` -/

theorem natDigitsGo_length_le_two (fuel n : Nat) (h : n < 100) :
    (natDigitsGo fuel n).length ≤ 2 := by
  cases fuel with
  | zero => simp [natDigitsGo]
  | succ fuel =>
    rw [natDigitsGo]
    by_cases h10 : n < 10
    · rw [if_pos h10]; simp
    · rw [if_neg h10]
      have hq : n / 10 < 10 := by omega
      cases fuel with
      | zero => simp [natDigitsGo]
      | succ fuel2 =>
        rw [natDigitsGo, if_pos hq]
        simp

theorem natDigits_length_le_two (n : Nat) (h : n < 100) : (natDigits n).length ≤ 2 :=
  natDigitsGo_length_le_two n n h

theorem chunkLabel_length (i n : Nat) :
    (chunkLabel i n).length = 4 + (natDigits i).length + (natDigits n).length := by
  rw [chunkLabel]
  simp [List.length_append]
  omega

theorem chunkLabel_length_le (i n : Nat) (hi : i < 100) (hn : n < 100) :
    (chunkLabel i n).length ≤ PREFIX_RESERVE_LENGTH := by
  rw [chunkLabel_length]
  have h1 := natDigits_length_le_two i hi
  have h2 := natDigits_length_le_two n hn
  rw [show PREFIX_RESERVE_LENGTH = 8 from rfl]
  omega

theorem mem_format_chunks (cs : List (List UChar)) (c : List UChar)
    (hlen : 2 ≤ cs.length) (hc : c ∈ format_chunks cs) :
    ∃ i ch, i < cs.length ∧ ch ∈ cs ∧ c = chunkLabel (i + 1) cs.length ++ ch := by
  rw [format_chunks, if_neg (by omega)] at hc
  obtain ⟨p, hp, hpc⟩ := List.mem_map.mp hc
  have hp' : p ∈ cs.enumFrom 0 := hp
  obtain ⟨i, ch⟩ := p
  have hmem : ch ∈ cs := List.snd_mem_of_mem_enumFrom hp'
  have hlt : i < cs.length := by
    have := List.fst_lt_add_of_mem_enumFrom hp'
    omega
  exact ⟨i, ch, hlt, hmem, hpc.symm⟩

theorem graphemeCount_format_le (cs : List (List UChar)) (c : List UChar)
    (hlen : 2 ≤ cs.length) (hlen99 : cs.length ≤ 99)
    (hcs : ∀ ch ∈ cs, graphemeCount ch ≤ effectiveChunkLimit)
    (hc : c ∈ format_chunks cs) : graphemeCount c ≤ MAX_MESSAGE_LENGTH := by
  obtain ⟨i, ch, hi, hchmem, hceq⟩ := mem_format_chunks cs c hlen hc
  rw [hceq]
  calc graphemeCount (chunkLabel (i + 1) cs.length ++ ch)
      ≤ graphemeCount (chunkLabel (i + 1) cs.length) + graphemeCount ch :=
        graphemeCount_append_le _ _
    _ ≤ (chunkLabel (i + 1) cs.length).length + effectiveChunkLimit := by
        have h1 := graphemeCount_le_length (chunkLabel (i + 1) cs.length)
        have h2 := hcs ch hchmem
        omega
    _ ≤ PREFIX_RESERVE_LENGTH + effectiveChunkLimit := by
        have := chunkLabel_length_le (i + 1) cs.length (by omega) (by omega)
        omega
    _ = MAX_MESSAGE_LENGTH := by decide

/-! ### Lemmas about the dispatcher loop -/

theorem sendChunksGo_cons_err (tr : Nat → List UChar → Except FreeMobileError Unit)
    (i : Nat) (c : List UChar) (rest : List (List UChar)) (e : FreeMobileError)
    (h : tr i c = Except.error e) :
    sendChunksGo tr i (c :: rest) = (Except.error e, [(i, c)]) := by
  rw [sendChunksGo, h]

theorem sendChunksGo_cons_ok (tr : Nat → List UChar → Except FreeMobileError Unit)
    (i : Nat) (c : List UChar) (rest : List (List UChar))
    (h : tr i c = Except.ok ()) :
    sendChunksGo tr i (c :: rest) =
      ((sendChunksGo tr (i + 1) rest).1, (i, c) :: (sendChunksGo tr (i + 1) rest).2) := by
  rw [sendChunksGo, h]

theorem sendChunksGo_spec (tr : Nat → List UChar → Except FreeMobileError Unit) :
    ∀ (cs : List (List UChar)) (i : Nat),
    ((sendChunksGo tr i cs).1 = Except.ok () → (sendChunksGo tr i cs).2 = cs.enumFrom i) ∧
    (∀ e, (sendChunksGo tr i cs).1 = Except.error e →
      ∃ k, k < cs.length ∧ (sendChunksGo tr i cs).2 = (cs.enumFrom i).take (k + 1) ∧
        tr (i + k) (cs.getD k []) = Except.error e ∧
        ∀ j, j < k → tr (i + j) (cs.getD j []) = Except.ok ()) := by
  intro cs
  induction cs with
  | nil =>
    intro i
    refine ⟨fun _ => rfl, fun e he => ?_⟩
    simp [sendChunksGo] at he
  | cons c rest ih =>
    intro i
    constructor
    · intro hok
      cases htr : tr i c with
      | error e0 =>
        rw [sendChunksGo_cons_err tr i c rest e0 htr] at hok
        simp at hok
      | ok u =>
        cases u
        rw [sendChunksGo_cons_ok tr i c rest htr] at hok ⊢
        rw [List.enumFrom_cons]
        simp only at hok ⊢
        rw [(ih (i + 1)).1 hok]
    · intro e he
      cases htr : tr i c with
      | error e0 =>
        rw [sendChunksGo_cons_err tr i c rest e0 htr] at he ⊢
        simp only at he ⊢
        refine ⟨0, by simp, ?_, ?_, ?_⟩
        · rw [List.enumFrom_cons]
          rfl
        · rw [Nat.add_zero]
          rw [show (c :: rest).getD 0 [] = c from rfl, htr]
          injection he with h
          rw [h]
        · intro j hj; omega
      | ok u =>
        cases u
        rw [sendChunksGo_cons_ok tr i c rest htr] at he ⊢
        simp only at he ⊢
        obtain ⟨k, hk, htrace, herr, hprev⟩ := (ih (i + 1)).2 e he
        refine ⟨k + 1, by simp; omega, ?_, ?_, ?_⟩
        · rw [List.enumFrom_cons, List.take_succ_cons, htrace]
        · rw [show (c :: rest).getD (k + 1) [] = rest.getD k [] from rfl]
          rw [show i + (k + 1) = (i + 1) + k from by omega]
          exact herr
        · intro j hj
          cases j with
          | zero => rw [Nat.add_zero]; rw [show (c :: rest).getD 0 [] = c from rfl, htr]
          | succ j' =>
            rw [show (c :: rest).getD (j' + 1) [] = rest.getD j' [] from rfl]
            rw [show i + (j' + 1) = (i + 1) + j' from by omega]
            exact hprev j' (by omega)

/-! ### Lemmas about the sanitizer -/

theorem sanitize_cons_not_picto (sup : List UChar → Bool) (c : UChar) (r : List UChar)
    (h : picto c = false) : sanitize sup (c :: r) = c :: sanitize sup r := by
  cases r with
  | nil => simp [sanitize, h]
  | cons v r2 => simp [sanitize, h]

theorem sanitize_head_not_vs (sup : List UChar → Bool) (v : UChar) (r : List UChar)
    (hv : vsOrKeycap v = false) :
    ∃ h2 t2, sanitize sup (v :: r) = h2 :: t2 ∧ vsOrKeycap h2 = false := by
  by_cases hp : picto v
  · cases r with
    | nil =>
      rw [show sanitize sup [v] = keepOrReplace sup [v] from by simp [sanitize, hp]]
      rw [keepOrReplace]
      by_cases hk : (sup (stripVS [v]) || sup [v]) = true
      · rw [if_pos hk]; exact ⟨v, [], rfl, hv⟩
      · rw [if_neg hk]; exact ⟨mkAscii 0x5B, [mkAscii 0x5D], rfl, by decide⟩
    | cons w r2 =>
      by_cases hw : vsOrKeycap w
      · rw [show sanitize sup (v :: w :: r2) =
            keepOrReplace sup [v, w] ++ sanitize sup r2 from by simp [sanitize, hp, hw]]
        rw [keepOrReplace]
        by_cases hk : (sup (stripVS [v, w]) || sup [v, w]) = true
        · rw [if_pos hk]; exact ⟨v, w :: sanitize sup r2, rfl, hv⟩
        · rw [if_neg hk]
          exact ⟨mkAscii 0x5B, mkAscii 0x5D :: sanitize sup r2, rfl, by decide⟩
      · rw [show sanitize sup (v :: w :: r2) =
            keepOrReplace sup [v] ++ sanitize sup (w :: r2) from by
          simp [sanitize, hp, hw]]
        rw [keepOrReplace]
        by_cases hk : (sup (stripVS [v]) || sup [v]) = true
        · rw [if_pos hk]; exact ⟨v, sanitize sup (w :: r2), rfl, hv⟩
        · rw [if_neg hk]
          exact ⟨mkAscii 0x5B, mkAscii 0x5D :: sanitize sup (w :: r2), rfl, by decide⟩
  · rw [sanitize_cons_not_picto sup v r (by simpa using hp)]
    exact ⟨v, sanitize sup r, rfl, hv⟩

theorem sanitize_idem (sup : List UChar → Bool) (t : List UChar) :
    sanitize sup (sanitize sup t) = sanitize sup t := by
  induction t using sanitize.induct sup with
  | case1 => rfl
  | case2 c hp =>
    rw [show sanitize sup [c] = keepOrReplace sup [c] from by simp [sanitize, hp]]
    rw [keepOrReplace]
    by_cases hk : (sup (stripVS [c]) || sup [c]) = true
    · rw [if_pos hk]
      rw [show sanitize sup [c] = keepOrReplace sup [c] from by simp [sanitize, hp]]
      rw [keepOrReplace, if_pos hk]
    · rw [if_neg hk]
      rw [show placeholder = mkAscii 0x5B :: [mkAscii 0x5D] from rfl]
      rw [sanitize_cons_not_picto sup _ _ (by decide),
        sanitize_cons_not_picto sup _ _ (by decide)]
      rfl
  | case3 c hp =>
    have hp' : picto c = false := by simpa using hp
    rw [show sanitize sup [c] = [c] from by simp [sanitize, hp']]
    rw [show sanitize sup [c] = [c] from by simp [sanitize, hp']]
  | case4 c v rest2 hp hv ih =>
    rw [show sanitize sup (c :: v :: rest2) =
        keepOrReplace sup [c, v] ++ sanitize sup rest2 from by simp [sanitize, hp, hv]]
    rw [keepOrReplace]
    by_cases hk : (sup (stripVS [c, v]) || sup [c, v]) = true
    · rw [if_pos hk]
      rw [show [c, v] ++ sanitize sup rest2 = c :: v :: sanitize sup rest2 from rfl]
      rw [show sanitize sup (c :: v :: sanitize sup rest2) =
          keepOrReplace sup [c, v] ++ sanitize sup (sanitize sup rest2) from by
        simp [sanitize, hp, hv]]
      rw [keepOrReplace, if_pos hk, ih]
      rfl
    · rw [if_neg hk]
      rw [show placeholder ++ sanitize sup rest2 =
          mkAscii 0x5B :: mkAscii 0x5D :: sanitize sup rest2 from rfl]
      rw [sanitize_cons_not_picto sup _ _ (by decide),
        sanitize_cons_not_picto sup _ _ (by decide), ih]
  | case5 c v rest2 hp hv ih =>
    have hv' : vsOrKeycap v = false := by simpa using hv
    rw [show sanitize sup (c :: v :: rest2) =
        keepOrReplace sup [c] ++ sanitize sup (v :: rest2) from by
      simp [sanitize, hp, hv']]
    obtain ⟨h2, t2, hS, hh2⟩ := sanitize_head_not_vs sup v rest2 hv'
    rw [keepOrReplace]
    by_cases hk : (sup (stripVS [c]) || sup [c]) = true
    · rw [if_pos hk]
      rw [hS]
      rw [show [c] ++ h2 :: t2 = c :: h2 :: t2 from rfl]
      rw [show sanitize sup (c :: h2 :: t2) =
          keepOrReplace sup [c] ++ sanitize sup (h2 :: t2) from by
        simp [sanitize, hp, hh2]]
      rw [keepOrReplace, if_pos hk, ← hS, ih, hS]
      rfl
    · rw [if_neg hk]
      rw [hS]
      rw [show placeholder ++ h2 :: t2 = mkAscii 0x5B :: mkAscii 0x5D :: h2 :: t2 from rfl]
      rw [sanitize_cons_not_picto sup _ _ (by decide),
        sanitize_cons_not_picto sup _ _ (by decide), ← hS, ih, hS]
  | case6 c v rest2 hp ih =>
    have hp' : picto c = false := by simpa using hp
    rw [sanitize_cons_not_picto sup c _ hp']
    rw [sanitize_cons_not_picto sup c _ hp']
    rw [ih]

theorem sanitize_byteLen_le (sup : List UChar → Bool) (t : List UChar)
    (h : ∀ c ∈ t, picto c = true → 2 ≤ c.bytes) :
    byteLen (sanitize sup t) ≤ byteLen t := by
  induction t using sanitize.induct sup with
  | case1 => exact Nat.le_refl _
  | case2 c hp =>
    rw [show sanitize sup [c] = keepOrReplace sup [c] from by simp [sanitize, hp]]
    rw [keepOrReplace]
    by_cases hk : (sup (stripVS [c]) || sup [c]) = true
    · rw [if_pos hk]
    · rw [if_neg hk]
      have := h c (by simp) hp
      rw [show byteLen placeholder = 2 from rfl, byteLen_cons, byteLen_nil]
      omega
  | case3 c hp =>
    have hp' : picto c = false := by simpa using hp
    rw [show sanitize sup [c] = [c] from by simp [sanitize, hp']]
  | case4 c v rest2 hp hv ih =>
    rw [show sanitize sup (c :: v :: rest2) =
        keepOrReplace sup [c, v] ++ sanitize sup rest2 from by simp [sanitize, hp, hv]]
    have ih2 := ih (fun x hx hpx => h x (by simp [hx]) hpx)
    rw [byteLen_append, keepOrReplace]
    rw [show byteLen (c :: v :: rest2) = c.bytes + v.bytes + byteLen rest2 from by
      rw [byteLen_cons, byteLen_cons]; omega]
    by_cases hk : (sup (stripVS [c, v]) || sup [c, v]) = true
    · rw [if_pos hk]
      rw [show byteLen [c, v] = c.bytes + v.bytes from by
        rw [byteLen_cons, byteLen_cons, byteLen_nil]; omega]
      omega
    · rw [if_neg hk]
      have := h c (by simp) hp
      rw [show byteLen placeholder = 2 from rfl]
      omega
  | case5 c v rest2 hp hv ih =>
    have hv' : vsOrKeycap v = false := by simpa using hv
    rw [show sanitize sup (c :: v :: rest2) =
        keepOrReplace sup [c] ++ sanitize sup (v :: rest2) from by
      simp [sanitize, hp, hv']]
    have ih2 := ih (fun x hx hpx => h x (by simp at hx ⊢; tauto) hpx)
    rw [byteLen_append, keepOrReplace]
    rw [show byteLen (c :: v :: rest2) = c.bytes + byteLen (v :: rest2) from
      byteLen_cons c (v :: rest2)]
    by_cases hk : (sup (stripVS [c]) || sup [c]) = true
    · rw [if_pos hk]
      rw [show byteLen [c] = c.bytes + byteLen [] from byteLen_cons c [], byteLen_nil]
      omega
    · rw [if_neg hk]
      have := h c (by simp) hp
      rw [show byteLen placeholder = 2 from rfl]
      omega
  | case6 c v rest2 hp ih =>
    have hp' : picto c = false := by simpa using hp
    rw [sanitize_cons_not_picto sup c _ hp']
    have ih2 := ih (fun x hx hpx => h x (by simp at hx ⊢; tauto) hpx)
    rw [byteLen_cons, byteLen_cons]
    omega

/-! ### Evaluating the chunker on the hundred-chunk counterexample input -/

theorem get?_replicate_lt (a : UChar) : ∀ (n i : Nat), i < n →
    (List.replicate n (List.replicate effectiveChunkLimit a)).get? i =
      some (List.replicate effectiveChunkLimit a) := by
  intro n
  induction n with
  | zero => intro i hi; omega
  | succ m ih =>
    intro i hi
    cases i with
    | zero => rw [List.replicate_succ]; rfl
    | succ j =>
      rw [List.replicate_succ]
      rw [show ((List.replicate effectiveChunkLimit a) ::
          List.replicate m (List.replicate effectiveChunkLimit a)).get? (j + 1) =
          (List.replicate m (List.replicate effectiveChunkLimit a)).get? j from rfl]
      exact ih j (by omega)

theorem chunk_bigC1 :
    chunk bigC1 = List.replicate 100 (List.replicate effectiveChunkLimit aCh) := by
  have e : effectiveChunkLimit = 991 := rfl
  rw [bigC1, chunk]
  rw [if_neg (by
    rw [trim_replicate _ _ (show aCh.ws = false from rfl)]
    simp
    omega)]
  rw [if_neg (by
    rw [graphemeCount_replicate _ _ (show aCh.ext = false from rfl)]
    rw [show MAX_MESSAGE_LENGTH = 999 from rfl]
    omega)]
  rw [List.length_replicate]
  exact chunkLoop_replicate_mul aCh rfl rfl rfl 100 (effectiveChunkLimit * 100)
    (by omega) (by omega)

theorem bigC1_label : chunkLabel 11 100 =
    [mkAscii 0x5B, digitChar 1, digitChar 1, mkAscii 0x2F, digitChar 1, digitChar 0,
      digitChar 0, mkAscii 0x5D, mkAscii 0x20] := by
  decide

theorem bigC1_formatted_at_10 :
    (format_chunks (chunk bigC1)).getD 10 [] =
      chunkLabel 11 100 ++ List.replicate effectiveChunkLimit aCh := by
  rw [chunk_bigC1]
  rw [format_chunks, if_neg (by rw [List.length_replicate]; omega)]
  rw [List.getD_eq_get?, List.get?_map, List.get?_enum]
  rw [get?_replicate_lt aCh 100 10 (by omega)]
  rw [List.length_replicate]
  rfl

theorem bigC1_formatted_count :
    graphemeCount ((format_chunks (chunk bigC1)).getD 10 []) = 1000 := by
  rw [bigC1_formatted_at_10]
  rw [graphemeCount_all_nonext]
  · rw [List.length_append, List.length_replicate, bigC1_label]
    rfl
  · intro c hc
    rcases List.mem_append.mp hc with h1 | h1
    · rw [bigC1_label] at h1
      have hall : ∀ x ∈ [mkAscii 0x5B, digitChar 1, digitChar 1, mkAscii 0x2F,
          digitChar 1, digitChar 0, digitChar 0, mkAscii 0x5D, mkAscii 0x20],
          x.ext = false := by decide
      exact hall c h1
    · rw [List.eq_of_mem_replicate h1]; rfl

/-! ### Claim C1 -/

/-- C1, counterexample to the claim as stated: on an input chunked into 100
chunks, `format_chunks` produces a chunk (index 10, label `"[11/100] "`) whose
grapheme-cluster length 1000 exceeds the absolute transport limit 999, even
though chunking produced more than one chunk. -/
theorem c1_counterexample :
    1 < (chunk bigC1).length ∧
      MAX_MESSAGE_LENGTH < graphemeCount ((format_chunks (chunk bigC1)).getD 10 []) := by
  constructor
  · rw [chunk_bigC1, List.length_replicate]; omega
  · rw [bigC1_formatted_count]; decide

/-- C1 (amended): for every input whose chunking produces more than one and at
most 99 chunks (two-digit indices, the margin the reserve was sized for),
every formatted chunk's grapheme-cluster length is at most the absolute
transport limit 999. -/
theorem c1_formatted_chunks_within_limit (msg : List UChar)
    (h2 : 2 ≤ (chunk msg).length) (h99 : (chunk msg).length ≤ 99) :
    ∀ c ∈ format_chunks (chunk msg), graphemeCount c ≤ MAX_MESSAGE_LENGTH := by
  have hloop : chunk msg = chunkLoop msg.length msg := by
    by_cases h0 : trim msg = []
    · exfalso; rw [chunk, if_pos h0] at h2; simp at h2
    · by_cases h1 : graphemeCount msg ≤ MAX_MESSAGE_LENGTH
      · exfalso; rw [chunk, if_neg h0, if_pos h1] at h2; simp at h2
      · rw [chunk, if_neg h0, if_neg h1]
  intro c hc
  apply graphemeCount_format_le (chunk msg) c h2 h99 _ hc
  intro ch hch
  rw [hloop] at hch
  exact chunkLoop_count_le msg.length msg ch hch

/-- C1 witness: a run of 1000 letters chunks into exactly two chunks, and the
amended theorem applies to it. -/
theorem c1_formatted_chunks_within_limit_witness :
    2 ≤ (chunk (List.replicate 1000 aCh)).length ∧
      (chunk (List.replicate 1000 aCh)).length ≤ 99 ∧
      ∀ c ∈ format_chunks (chunk (List.replicate 1000 aCh)),
        graphemeCount c ≤ MAX_MESSAGE_LENGTH := by
  have hch : chunk (List.replicate 1000 aCh) =
      [List.replicate effectiveChunkLimit aCh,
       List.replicate (1000 - effectiveChunkLimit) aCh] := by
    rw [chunk]
    rw [if_neg (by rw [trim_replicate _ _ rfl]; simp)]
    rw [if_neg (by rw [graphemeCount_replicate _ _ rfl]; decide)]
    rw [List.length_replicate, show (1000 : Nat) = 999 + 1 from rfl]
    rw [chunkLoop_replicate_step 999 1000 aCh rfl rfl rfl (by decide)]
    rw [show (999 : Nat) = 998 + 1 from rfl]
    rw [chunkLoop_replicate_base 998 (1000 - effectiveChunkLimit) aCh rfl (by decide)
      (by decide) rfl]
  have h2 : 2 ≤ (chunk (List.replicate 1000 aCh)).length := by rw [hch]; simp
  have h99 : (chunk (List.replicate 1000 aCh)).length ≤ 99 := by rw [hch]; simp
  exact ⟨h2, h99, c1_formatted_chunks_within_limit (List.replicate 1000 aCh) h2 h99⟩

/-! ### Claim C2 -/

/-- C2, counterexample to the claim as stated: the text `" a"` is neither
empty nor whitespace-only, its trimmed grapheme-cluster length is within the
absolute limit, yet `chunk` returns the text unchanged — not trimmed of its
leading space as the claim asserts. -/
theorem c2_counterexample :
    trim exC2 ≠ [] ∧ graphemeCount (trim exC2) ≤ MAX_MESSAGE_LENGTH ∧
      chunk exC2 ≠ [trim exC2] := by
  refine ⟨by decide, by decide, by decide⟩

/-- C2 (amended): for every text that is not empty or whitespace-only and
whose (untrimmed) grapheme-cluster length is at most the absolute transport
limit 999, `chunk` returns exactly one chunk equal to the text itself,
unchanged, and `format_chunks` leaves it unchanged (no label). -/
theorem c2_single_chunk_unchanged (msg : List UChar) (h0 : trim msg ≠ [])
    (h1 : graphemeCount msg ≤ MAX_MESSAGE_LENGTH) :
    chunk msg = [msg] ∧ format_chunks (chunk msg) = [msg] := by
  have hch : chunk msg = [msg] := by rw [chunk, if_neg h0, if_pos h1]
  refine ⟨hch, ?_⟩
  rw [hch, format_chunks, if_pos (by simp)]

/-- C2 witness. -/
theorem c2_single_chunk_unchanged_witness :
    trim [aCh] ≠ [] ∧ graphemeCount [aCh] ≤ MAX_MESSAGE_LENGTH ∧
      chunk [aCh] = [[aCh]] ∧ format_chunks (chunk [aCh]) = [[aCh]] := by
  refine ⟨by decide, by decide, ?_⟩
  exact c2_single_chunk_unchanged [aCh] (by decide) (by decide)

/-! ### Claim C3 -/

/-- C3, counterexample to the claim as stated: on 330 one-byte letters, a
space, then 670 two-byte letters, the grapheme-measured rule accepts the
boundary (cluster position 331 of span 991 lies beyond one third), but the
code compares byte positions (331 ≤ 1651/3) and hard-splits at the
effective-limit boundary, so the first emitted chunk differs from the
grapheme-measured prediction. -/
theorem c3_counterexample :
    (∀ c ∈ exC3, 1 ≤ c.bytes) ∧ trim exC3 ≠ [] ∧
      MAX_MESSAGE_LENGTH < graphemeCount exC3 ∧
      (chunk exC3).head? ≠ some (specFirstChunkGr exC3) := by
  have hlen : exC3.length = 1001 := by
    rw [exC3, List.length_append, List.length_append, List.length_replicate,
      List.length_replicate]
    decide
  refine ⟨exC3_bytes, ?_, ?_, ?_⟩
  · rw [exC3_trim]
    intro h
    rw [h] at hlen
    simp at hlen
  · rw [exC3_count]; decide
  · rw [exC3_chunk_head, exC3_specFirstChunkGr]
    intro h
    injection h with h2
    have hl := congrArg List.length h2
    rw [List.length_append, List.length_append, List.length_replicate,
      List.length_replicate] at hl
    simp at hl

/-- C3 (amended): in every chunking iteration the split point is the byte
position just after the last whitespace-containing grapheme cluster whenever
that byte position exceeds one third of the scanned span's byte length, and
is the byte boundary of the scanned span otherwise — positions and span are
measured in UTF-8 bytes, not grapheme clusters; the first chunk of the
multi-chunk path is the trimmed byte-prefix at that split position. -/
theorem c3_split_measured_in_bytes (rem : List UChar) (ht : trim rem ≠ [])
    (hcount : MAX_MESSAGE_LENGTH < graphemeCount rem)
    (hb : ∀ c ∈ rem, 1 ≤ c.bytes) :
    (chunk rem).head? = some (trim (takeBytes rem (splitPosBytes rem))) :=
  chunk_head_eq_byteSplit rem ht hcount hb

/-- C3 witness: the amended byte-measured description matches the code on the
mixed-width input. -/
theorem c3_split_measured_in_bytes_witness :
    trim exC3 ≠ [] ∧ MAX_MESSAGE_LENGTH < graphemeCount exC3 ∧
      (chunk exC3).head? = some (trim (takeBytes exC3 (splitPosBytes exC3))) := by
  have hlen : exC3.length = 1001 := by
    rw [exC3, List.length_append, List.length_append, List.length_replicate,
      List.length_replicate]
    decide
  have h1 : trim exC3 ≠ [] := by
    rw [exC3_trim]
    intro h
    rw [h] at hlen
    simp at hlen
  have h2 : MAX_MESSAGE_LENGTH < graphemeCount exC3 := by rw [exC3_count]; decide
  exact ⟨h1, h2, c3_split_measured_in_bytes exC3 h1 h2 exC3_bytes⟩

/-! ### Claim C4 -/

/-- C4, counterexample to the claim as stated: sanitizing the single
unsupported pictograph 😀 yields the two-character placeholder `"[]"`, whose
grapheme-cluster length 2 exceeds the input's grapheme-cluster length 1. -/
theorem c4_counterexample :
    graphemeCount [grinningFace] <
      graphemeCount (sanitize is_supported_emoji [grinningFace]) := by
  decide

/-- C4 (amended): sanitization never increases the UTF-8 byte length: for
every text whose emoji-presentation or extended-pictographic characters
occupy at least two UTF-8 bytes (true of all such Unicode characters), the
byte length of the sanitized text is at most that of the input. -/
theorem c4_sanitize_never_grows_bytes (sup : List UChar → Bool) (t : List UChar)
    (h : ∀ c ∈ t, picto c = true → 2 ≤ c.bytes) :
    byteLen (sanitize sup t) ≤ byteLen t :=
  sanitize_byteLen_le sup t h

/-- C4 witness. -/
theorem c4_sanitize_never_grows_bytes_witness :
    (∀ c ∈ [grinningFace], picto c = true → 2 ≤ c.bytes) ∧
      byteLen (sanitize is_supported_emoji [grinningFace]) ≤ byteLen [grinningFace] := by
  refine ⟨by decide, ?_⟩
  exact c4_sanitize_never_grows_bytes is_supported_emoji [grinningFace] (by decide)

/-! ### Claim C5 -/

/-- C5: sanitization is idempotent — re-sanitizing already-sanitized text
yields an identical result, for every input text and every allow-list
predicate. -/
theorem c5_sanitize_idempotent (sup : List UChar → Bool) (t : List UChar) :
    sanitize sup (sanitize sup t) = sanitize sup t :=
  sanitize_idem sup t

/-! ### Claim C6 -/

/-- C6: the chunks of `MessageChunker::chunk` are in-order contiguous
sub-sequences of the input — each chunk is an infix — and their concatenation
preserves the input's non-whitespace characters exactly: only whitespace at
chunk boundaries is dropped, nothing is lost, duplicated, or reordered. -/
theorem c6_chunks_partition (msg : List UChar) :
    ((chunk msg).flatten.filter (fun c => !c.ws) = msg.filter (fun c => !c.ws)) ∧
      (∀ c ∈ chunk msg, List.IsInfix c msg) := by
  constructor
  · by_cases h0 : trim msg = []
    · rw [chunk, if_pos h0]
      rw [trim_eq_nil_filter msg h0]
      rfl
    · by_cases h1 : graphemeCount msg ≤ MAX_MESSAGE_LENGTH
      · rw [chunk, if_neg h0, if_pos h1]
        simp
      · rw [chunk, if_neg h0, if_neg h1]
        exact chunkLoop_filter msg.length msg (Nat.le_refl _)
  · intro c hc
    rw [chunk] at hc
    by_cases h0 : trim msg = []
    · rw [if_pos h0] at hc; simp at hc
    · rw [if_neg h0] at hc
      by_cases h1 : graphemeCount msg ≤ MAX_MESSAGE_LENGTH
      · rw [if_pos h1] at hc
        simp at hc
        subst hc
        exact ⟨[], [], by simp⟩
      · rw [if_neg h1] at hc
        exact chunkLoop_isInfix msg.length msg c hc

/-- C6 witness. -/
theorem c6_chunks_partition_witness :
    ((chunk [spCh, aCh]).flatten.filter (fun c => !c.ws) =
      [spCh, aCh].filter (fun c => !c.ws)) ∧
      List.IsInfix [spCh, aCh] [spCh, aCh] := by
  refine ⟨(c6_chunks_partition [spCh, aCh]).1, ?_⟩
  exact (c6_chunks_partition [spCh, aCh]).2 [spCh, aCh] (by decide)

/-! ### Claim C7 -/

/-- C7: `MessageChunker::chunk` is total — every definition in this
development is a total function, and the chunking loop terminates on every
input because each iteration strictly advances: the remaining text after one
`chunkStep` is strictly shorter (by at least one character) than before. -/
theorem c7_chunk_loop_progress (rem : List UChar) (h : rem ≠ []) :
    (chunkStep rem).2.length < rem.length :=
  chunkStep_snd_length_lt rem h

/-- C7 witness. -/
theorem c7_chunk_loop_progress_witness :
    ([aCh] : List UChar) ≠ [] ∧ (chunkStep [aCh]).2.length < ([aCh] : List UChar).length := by
  refine ⟨by decide, ?_⟩
  exact c7_chunk_loop_progress [aCh] (by decide)

/-! ### Claim C8 -/

/-- C8: `send_sanitized` sends the formatted chunks strictly in order through
the transport, one request per chunk: on success the issued-request trace is
exactly the indexed chunk list; if sending chunk `k` fails, the failure is
returned immediately, the trace is exactly chunks `0..k` (later chunks are
never sent), and all chunks before `k` were sent successfully (never
retracted or retried). -/
theorem c8_send_sequential_stops_on_failure
    (transport : Nat → List UChar → Except FreeMobileError Unit) (msg : List UChar)
    (h0 : trim msg ≠ []) :
    ((send_sanitized transport msg).1 = Except.ok () →
      (send_sanitized transport msg).2 = (format_chunks (chunk msg)).enum) ∧
    (∀ e, (send_sanitized transport msg).1 = Except.error e →
      ∃ k, k < (format_chunks (chunk msg)).length ∧
        (send_sanitized transport msg).2 = ((format_chunks (chunk msg)).enum).take (k + 1) ∧
        transport k ((format_chunks (chunk msg)).getD k []) = Except.error e ∧
        ∀ j, j < k → transport j ((format_chunks (chunk msg)).getD j []) = Except.ok ()) := by
  have hs : send_sanitized transport msg =
      sendChunksGo transport 0 (format_chunks (chunk msg)) := by
    rw [send_sanitized, if_neg h0]
  have hspec := sendChunksGo_spec transport (format_chunks (chunk msg)) 0
  rw [hs]
  constructor
  · intro hok
    exact hspec.1 hok
  · intro e he
    obtain ⟨k, hk, ht, herr, hprev⟩ := hspec.2 e he
    refine ⟨k, hk, ht, ?_, ?_⟩
    · rwa [Nat.zero_add] at herr
    · intro j hj
      have := hprev j hj
      rwa [Nat.zero_add] at this

/-- C8 witness: with an always-succeeding transport and a one-letter message,
the trace is exactly the single formatted chunk. -/
theorem c8_send_sequential_stops_on_failure_witness :
    trim [aCh] ≠ [] ∧
      (send_sanitized (fun _ _ => Except.ok ()) [aCh]).2 =
        (format_chunks (chunk [aCh])).enum := by
  refine ⟨by decide, ?_⟩
  exact (c8_send_sequential_stops_on_failure (fun _ _ => Except.ok ()) [aCh]
    (by decide)).1 rfl

/-! ### Claim C9 -/

/-- C9, counterexample to the claim as stated: 2501 copies of `é` have
grapheme-cluster length 2501, well within the application ceiling 5000, yet
`validate_message` rejects the message as too long, because it measures the
UTF-8 byte length 5002. -/
theorem c9_counterexample :
    validate_message exC9 = Except.error FreeMobileError.InvalidMessage ∧
      graphemeCount exC9 ≤ CLI_MAX_MESSAGE_LENGTH ∧ trim exC9 ≠ [] := by
  have htrim : trim exC9 = exC9 := by rw [exC9]; exact trim_replicate _ _ rfl
  have hne : exC9 ≠ [] := by
    rw [exC9]
    intro h
    have h2 := congrArg List.length h
    rw [List.length_replicate] at h2
    exact absurd h2 (by decide)
  refine ⟨?_, ?_, by rw [htrim]; exact hne⟩
  · rw [validate_message, if_neg (by rw [htrim]; exact hne),
      if_pos (by rw [exC9, byteLen_replicate]; decide)]
  · rw [exC9, graphemeCount_replicate _ _ rfl]; decide

/-- C9 (amended): `validate_message` rejects a non-empty message as too long
exactly when its UTF-8 byte length (not grapheme-cluster length) exceeds the
application-level ceiling 5000, a ceiling strictly larger than the per-chunk
transport limit 999. -/
theorem c9_validate_measures_bytes (msg : List UChar) (h0 : trim msg ≠ []) :
    ((validate_message msg = Except.ok ()) ↔ byteLen msg ≤ CLI_MAX_MESSAGE_LENGTH) ∧
      MAX_MESSAGE_LENGTH < CLI_MAX_MESSAGE_LENGTH := by
  refine ⟨?_, by decide⟩
  rw [validate_message, if_neg h0]
  by_cases h1 : byteLen msg > CLI_MAX_MESSAGE_LENGTH
  · rw [if_pos h1]
    constructor
    · intro h; cases h
    · intro h; omega
  · rw [if_neg h1]
    constructor
    · intro _; omega
    · intro _; rfl

/-- C9 witness. -/
theorem c9_validate_measures_bytes_witness :
    trim [aCh] ≠ [] ∧ validate_message [aCh] = Except.ok () ∧
      byteLen [aCh] ≤ CLI_MAX_MESSAGE_LENGTH := by
  refine ⟨by decide, ?_, by decide⟩
  exact ((c9_validate_measures_bytes [aCh] (by decide)).1).mpr (by decide)

/-! ### Claim C10 -/

/-- C10: `Credentials::is_valid` holds exactly when both fields are non-empty
after trimming, `FreeMobileClient::new` returns the invalid-credentials error
exactly when the predicate is false, and in that case the result does not
depend on the HTTP-client build outcome (no transport interaction). -/
theorem clientNew_of_invalid (creds : Credentials) (b : Except Nat Unit)
    (h : creds.is_valid = false) :
    FreeMobileClient.new creds b = Except.error FreeMobileError.InvalidCredentials := by
  rw [FreeMobileClient.new.eq_def, h]
  rfl

theorem clientNew_of_valid_ok (creds : Credentials) (h : creds.is_valid = true) :
    FreeMobileClient.new creds (Except.ok ()) = Except.ok creds := by
  rw [FreeMobileClient.new.eq_def, h]
  rfl

theorem clientNew_of_valid_err (creds : Credentials) (e : Nat)
    (h : creds.is_valid = true) :
    FreeMobileClient.new creds (Except.error e) =
      Except.error (FreeMobileError.HttpError e) := by
  rw [FreeMobileClient.new.eq_def, h]
  rfl

theorem c10_credentials_guard (creds : Credentials) (build : Except Nat Unit) :
    (creds.is_valid = true ↔ (trim creds.user ≠ [] ∧ trim creds.pass ≠ [])) ∧
    (FreeMobileClient.new creds build = Except.error FreeMobileError.InvalidCredentials ↔
      creds.is_valid = false) ∧
    (creds.is_valid = false →
      ∀ b2, FreeMobileClient.new creds build = FreeMobileClient.new creds b2) := by
  refine ⟨?_, ?_, ?_⟩
  · rw [Credentials.is_valid]
    simp [List.isEmpty_iff]
  · by_cases hv : creds.is_valid
    · cases build with
      | error e =>
        rw [clientNew_of_valid_err creds e hv]
        constructor
        · intro h; injection h with h2; cases h2
        · intro h; rw [hv] at h; cases h
      | ok u =>
        cases u
        rw [clientNew_of_valid_ok creds hv]
        constructor
        · intro h; cases h
        · intro h; rw [hv] at h; cases h
    · have hv' : creds.is_valid = false := by
        cases hb : creds.is_valid
        · rfl
        · exact absurd hb hv
      rw [clientNew_of_invalid creds build hv']
      simp [hv']
  · intro hinv b2
    rw [clientNew_of_invalid creds build hinv, clientNew_of_invalid creds b2 hinv]

/-- C10 witness: empty user field. -/
theorem c10_credentials_guard_witness :
    (Credentials.mk [] [aCh]).is_valid = false ∧
      FreeMobileClient.new (Credentials.mk [] [aCh]) (Except.ok ()) =
        Except.error FreeMobileError.InvalidCredentials := by
  refine ⟨by decide, ?_⟩
  exact ((c10_credentials_guard (Credentials.mk [] [aCh]) (Except.ok ())).2.1).mpr
    (by decide)

